import Mathlib

/-!
# Verification of the Gaussian-elimination notebook

Shallow embedding of `src/gaussian_elimination.ipynb` (a NumPy Gaussian
elimination solver).  Matrices are lists of rows of rationals: the notebook's
`float64` arithmetic is modelled by exact arithmetic over `ℚ`, and NumPy's
tolerance-based zero tests (`np.isclose(v, 0, ...)`) become decidable
comparisons `|v| ≤ atol` (with `b = 0` the `rtol` term of `np.isclose`
vanishes, so `np.isclose(v, 0, atol) ↔ |v - 0| ≤ atol + rtol·|0| = |v| ≤ atol`).

`np.isclose` called without an explicit `atol` uses its default `atol = 1e-8`;
the two pivot scanners pass `atol = 1e-5` explicitly.
-/

namespace GaussElim

/-- A matrix: list of rows of rationals (NumPy 2-D `float64` array). -/
abbrev Mat := List (List ℚ)

/-- The `atol = 1e-5` passed explicitly to `np.isclose` by the two scanners. -/
def atolScan : ℚ := 1 / 100000

/-- The default `atol = 1e-8` of `np.isclose`, used by the determinant test and
the pivot-candidate test, which call `np.isclose(value, 0)` with no `atol`. -/
def atolDefault : ℚ := 1 / 100000000

/-- `np.isclose(v, 0, atol)`: with second argument `0` the relative-tolerance
term vanishes, leaving `|v| ≤ atol`. -/
def np_isclose_zero (atol v : ℚ) : Bool := decide (|v| ≤ atol)

/-- Entry `M[i][j]`; rows and entries out of range default to `0`/`[]`
(NumPy arrays are rectangular, so in-range uses never hit the default). -/
def entry (M : Mat) (i j : ℕ) : ℚ := (M.getD i []).getD j 0

/-- `swap_rows(M, row_index_1, row_index_2)` from the notebook: copy `M` and
exchange the two rows (`M[[i, j]] = M[[j, i]]`, a simultaneous assignment:
both right-hand rows are read from the original matrix). -/
def swap_rows (M : Mat) (i j : ℕ) : Mat :=
  (M.set i (M.getD j [])).set j (M.getD i [])

/-- Scanning loop shared by the two pivot scanners: walk the list, return the
running index of the first element on which the test `p` is `false`
(`if not np.isclose(val, 0, atol=1e-5): return i + offset`), else `-1`. -/
def scanAux (p : α → Bool) : List α → ℕ → Int
  | [], _ => -1
  | a :: l, i => if p a then scanAux p l (i + 1) else (i : Int)

/-- `get_index_first_non_zero_from_column(M, column, starting_row)`:
first row index `r ≥ starting_row` whose entry in `column` is not within
`1e-5` of zero, or `-1` if there is none (the source iterates over the slice
`M[starting_row:, column]` and returns `i + starting_row`). -/
def get_index_first_non_zero_from_column (M : Mat) (column starting_row : ℕ) : Int :=
  scanAux (fun r => np_isclose_zero atolScan (r.getD column 0)) (M.drop starting_row) starting_row

/-- `get_index_first_non_zero_from_row(M, row, augmented)`: first column index
of `M[row]` holding a value not within `1e-5` of zero; if `augmented` the last
column is removed before scanning (`M = M[:, :-1]`). Returns `-1` if none. -/
def get_index_first_non_zero_from_row (M : Mat) (row : ℕ) (augmented : Bool) : Int :=
  let M' := if augmented then M.map (fun r => r.dropLast) else M
  scanAux (fun v => np_isclose_zero atolScan v) (M'.getD row []) 0

/-- `augmented_matrix(A, B) = np.hstack((A, B))`: per-row concatenation. -/
def augmented_matrix (A B : Mat) : Mat :=
  List.zipWith (fun ra rb => ra ++ rb) A B

/-- Determinant with explicit fuel (first argument bounds the recursion depth
by the row count); Laplace expansion along the first row. -/
def detAux : ℕ → Mat → ℚ
  | 0, _ => 1
  | _, [] => 1
  | fuel + 1, r :: rs =>
      (List.range r.length).foldr
        (fun j acc =>
          (-1) ^ j * r.getD j 0 * detAux fuel (rs.map (fun row => row.eraseIdx j)) + acc)
        0

/-- Exact rational determinant, modelling `np.linalg.det(A)` (the notebook
only compares the determinant against zero, so the exact value stands in for
the floating-point one). -/
def det (M : Mat) : ℚ := detAux M.length M

/-- One downward elimination update `M[j] = M[j] - M[j, pc] * M[pr]`:
subtract `entry M j pc` times row `pr` from row `j`.  Used with `pc = pr = row`
in the forward pass of `row_echelon_form`, and with `pc` the scanned pivot
column, `pr` the pivot row, in `back_substitution`. -/
def elim_step (pc pr : ℕ) (M : Mat) (j : ℕ) : Mat :=
  M.set j (List.zipWith (fun a b => a - entry M j pc * b) (M.getD j []) (M.getD pr []))

/-- `M[row] = M[row] / pivot`: divide every entry of row `row` by `pivot`. -/
def normalize_row (M : Mat) (row : ℕ) (pivot : ℚ) : Mat :=
  M.set row ((M.getD row []).map (fun v => v / pivot))

/-- `for j in range(row + 1, num_rows): M[j] = M[j] - M[j, row] * M[row]`. -/
def eliminate_below (M : Mat) (row num_rows : ℕ) : Mat :=
  (List.range' (row + 1) (num_rows - (row + 1))).foldl (elim_step row row) M

/-- One iteration of the `for row in range(num_rows)` loop of
`row_echelon_form`: inspect the diagonal pivot candidate; if it is close to
zero search strictly below for a replacement (swapping it in when found,
`continue`-ing when not); then normalize the pivot row and eliminate below. -/
def ref_process_row (num_rows : ℕ) (M : Mat) (row : ℕ) : Mat :=
  let pivot_candidate := entry M row row
  let picked : Option (Mat × ℚ) :=
    if np_isclose_zero atolDefault pivot_candidate then
      let swap_row_index := get_index_first_non_zero_from_column M row (row + 1)
      if swap_row_index = -1 then none
      else
        let M1 := swap_rows M row swap_row_index.toNat
        some (M1, entry M1 row row)
    else
      some (M, pivot_candidate)
  match picked with
  | none => M
  | some (M1, pivot) => eliminate_below (normalize_row M1 row pivot) row num_rows

/-- Result of `row_echelon_form`: either the literal string `'singular system'`
(modelled by the `singular` sentinel) or the reduced augmented matrix. -/
inductive RefResult where
  | singular : RefResult
  | matrix : Mat → RefResult
deriving DecidableEq, Repr

/-- `row_echelon_form(A, B)` from the notebook: return `'singular system'`
when `np.isclose(np.linalg.det(A), 0)` (default tolerances), else build the
augmented matrix (`astype('float64').copy()` is the identity on values) and
run the elimination loop for `row in range(len(A))`. -/
def row_echelon_form (A B : Mat) : RefResult :=
  if np_isclose_zero atolDefault (det A) then .singular
  else .matrix ((List.range A.length).foldl (ref_process_row A.length) (augmented_matrix A B))

/-- The elimination state after the first `k` iterations of the loop of
`row_echelon_form` (starting from the augmented matrix). -/
def refState (A B : Mat) (k : ℕ) : Mat :=
  (List.range k).foldl (ref_process_row A.length) (augmented_matrix A B)

/-- Row `row` of the current matrix receives a valid pivot: its diagonal
candidate is not close to zero, or a replacement row exists strictly below
(this is the negation of the `continue`/skip condition of the loop). -/
def has_valid_pivot (M : Mat) (row : ℕ) : Bool :=
  !np_isclose_zero atolDefault (entry M row row) ||
    decide (get_index_first_non_zero_from_column M row (row + 1) ≠ -1)

/-- Every row of the forward elimination receives a valid pivot (no iteration
takes the skip branch). -/
def all_pivots_valid (A B : Mat) : Bool :=
  (List.range A.length).all (fun k => has_valid_pivot (refState A B k) k)

/-- Modelled from the spec: one row of `back_substitution` (§4.5), whose
definition is missing from the saved notebook source (only its caller
`gaussian_elimination` and its documentation survive).  "locate its pivot
column via `first_nonzero_in_row` (restricted to the coefficient columns,
i.e., `augmented=true`) ... subtract `M[k][pivot_col] × M[row]` from row `k`"
for every row `k` above `row`.  A row with no pivot (`-1`) is skipped, matching
the reducer's lenient treatment of pivotless rows. -/
def back_sub_process_row (M : Mat) (row : ℕ) : Mat :=
  let p := get_index_first_non_zero_from_row M row true
  if p = -1 then M
  else (List.range row).foldl (elim_step p.toNat row) M

/-- Modelled from the spec: the upward loop of `back_substitution` —
"Starting from the last row and moving upward", process rows
`r - 1, r - 2, ..., 0`. -/
def back_sub_loop (M : Mat) : ℕ → Mat
  | 0 => M
  | r + 1 => back_sub_loop (back_sub_process_row M r) r

/-- Modelled from the spec: `back_substitution(M)` (§4.5), missing from the
saved source.  Runs the upward elimination over all rows, then reads the
solution off the last (constants) column, one value per row. -/
def back_substitution (M : Mat) : List ℚ :=
  (back_sub_loop M M.length).map (fun row => row.getD (row.length - 1) 0)

/-- Value returned by the intended `gaussian_elimination`: either the solution
vector or the `'singular system'` string propagated from `row_echelon_form`. -/
inductive PyValue where
  | vec : List ℚ → PyValue
  | str : String → PyValue
deriving DecidableEq, Repr

/-- `gaussian_elimination(A, B)` with `back_substitution` modelled from the
spec: reduce, propagate the singular marker (`isinstance(row_echelon_M, str)`),
else back-substitute. -/
def gaussian_elimination (A B : Mat) : PyValue :=
  match row_echelon_form A B with
  | .singular => .str "singular system"
  | .matrix M => .vec (back_substitution M)

/-- Outcome of running the saved notebook source itself: a solution vector, a
returned string, or an uncaught `NameError` escaping the call. -/
inductive PyOutcome where
  | vec : List ℚ → PyOutcome
  | str : String → PyOutcome
  | nameError : String → PyOutcome
deriving DecidableEq, Repr

/-- `gaussian_elimination(A, B)` exactly as the saved source runs: when
`row_echelon_form` yields the string, return it; otherwise the call
`back_substitution(row_echelon_M)` evaluates the global name
`back_substitution`, which is bound nowhere in the saved source, so Python
raises `NameError` (the recorded cell output predates the definition's
deletion; the saved program text has no such function). -/
def gaussian_elimination_saved (A B : Mat) : PyOutcome :=
  match row_echelon_form A B with
  | .singular => .str "singular system"
  | .matrix _ => .nameError "back_substitution"

/-- Dot product of two lists (`zipWith (*)` then sum). -/
def dot (xs ys : List ℚ) : ℚ := (List.zipWith (fun a b => a * b) xs ys).sum

/-- `x` solves every equation row of the augmented matrix `M` whose
coefficient part is the first `n` columns: `(M[i][:n]) · x = M[i][n]`. -/
def SolM (n : ℕ) (M : Mat) (x : List ℚ) : Prop :=
  ∀ i < M.length, dot ((M.getD i []).take n) x = (M.getD i []).getD n 0

/-- `M` has exactly `rows` rows, each of length `cols`. -/
def isRect (M : Mat) (rows cols : ℕ) : Prop :=
  M.length = rows ∧ ∀ r ∈ M, r.length = cols

instance (M : Mat) (rows cols : ℕ) : Decidable (isRect M rows cols) := by
  unfold isRect; infer_instance

/-! ## List utilities -/

theorem getD_set_eq {α : Type} (l : List α) (i : ℕ) (a d : α) (h : i < l.length) :
    (l.set i a).getD i d = a := by
  induction l generalizing i with
  | nil => simp at h
  | cons b t ih =>
    cases i with
    | zero => simp
    | succ n => simpa using ih n (by simpa using h)

theorem getD_set_ne {α : Type} (l : List α) (i j : ℕ) (a d : α) (h : i ≠ j) :
    (l.set i a).getD j d = l.getD j d := by
  induction l generalizing i j with
  | nil => simp
  | cons b t ih =>
    cases i with
    | zero =>
      cases j with
      | zero => exact absurd rfl h
      | succ m => simp
    | succ n =>
      cases j with
      | zero => simp
      | succ m => simpa using ih n m (fun hnm => h (by omega))

theorem getD_drop {α : Type} (l : List α) (s k : ℕ) (d : α) :
    (l.drop s).getD k d = l.getD (s + k) d := by
  induction l generalizing s with
  | nil => simp
  | cons b t ih =>
    cases s with
    | zero => simp
    | succ n => simp [Nat.succ_add, ih n]

theorem getD_take {α : Type} (l : List α) (n c : ℕ) (d : α) (h : c < n) :
    (l.take n).getD c d = l.getD c d := by
  induction l generalizing n c with
  | nil => simp
  | cons b t ih =>
    cases n with
    | zero => omega
    | succ m =>
      cases c with
      | zero => simp
      | succ c' => simpa using ih m c' (by omega)

theorem getD_map_pres {α β : Type} (f : α → β) (l : List α) (i : ℕ) (d : α) :
    (l.map f).getD i (f d) = f (l.getD i d) := by
  induction l generalizing i with
  | nil => simp
  | cons b t ih =>
    cases i with
    | zero => simp
    | succ n => simp [ih n]

/-- Pointwise description of a `zipWith` of two equal-length rows, valid at
every index because `f 0 0 = 0` matches the out-of-range default. -/
theorem getD_zipWith_zero (f : ℚ → ℚ → ℚ) (hf : f 0 0 = 0) (l1 l2 : List ℚ)
    (hlen : l1.length = l2.length) (c : ℕ) :
    (List.zipWith f l1 l2).getD c 0 = f (l1.getD c 0) (l2.getD c 0) := by
  induction l1 generalizing l2 c with
  | nil =>
    cases l2 with
    | nil => simpa using hf.symm
    | cons b t => simp at hlen
  | cons a t1 ih =>
    cases l2 with
    | nil => simp at hlen
    | cons b t2 =>
      cases c with
      | zero => simp
      | succ c' => simpa using ih t2 (by simpa using hlen) c'

/-- Pointwise description of a scaled row, valid at every index because
`g 0 = 0` matches the out-of-range default. -/
theorem getD_map_zero (g : ℚ → ℚ) (hg : g 0 = 0) (l : List ℚ) (c : ℕ) :
    (l.map g).getD c 0 = g (l.getD c 0) := by
  have := getD_map_pres g l c 0
  rwa [hg] at this

theorem take_zipWith' {α : Type} (f : α → α → α) (l1 l2 : List α) (n : ℕ) :
    (List.zipWith f l1 l2).take n = List.zipWith f (l1.take n) (l2.take n) := by
  induction l1 generalizing l2 n with
  | nil => simp
  | cons a t1 ih =>
    cases l2 with
    | nil => simp
    | cons b t2 =>
      cases n with
      | zero => simp
      | succ m => simpa using ih t2 m

theorem set_getD_self {α : Type} (l : List α) (i : ℕ) (d : α) (h : i < l.length) :
    l.set i (l.getD i d) = l := by
  rw [List.getD_eq_getElem l d h]
  induction l generalizing i with
  | nil => simp at h
  | cons b t ih =>
    cases i with
    | zero => simp
    | succ n => simpa using ih n (by simpa using h)

/-! ## Dot-product lemmas -/

theorem dot_nil_right (xs : List ℚ) : dot xs [] = 0 := by
  cases xs <;> simp [dot]

theorem dot_cons (a : ℚ) (l : List ℚ) (b : ℚ) (x : List ℚ) :
    dot (a :: l) (b :: x) = a * b + dot l x := by
  simp [dot]

theorem dot_sub_smul (v : ℚ) (l1 l2 x : List ℚ) (hlen : l1.length = l2.length) :
    dot (List.zipWith (fun a b => a - v * b) l1 l2) x = dot l1 x - v * dot l2 x := by
  induction l1 generalizing l2 x with
  | nil =>
    cases l2 with
    | nil => simp [dot]
    | cons b t => simp at hlen
  | cons a t1 ih =>
    cases l2 with
    | nil => simp at hlen
    | cons b t2 =>
      cases x with
      | nil => simp [dot]
      | cons x0 xt =>
        rw [List.zipWith_cons_cons, dot_cons, dot_cons, dot_cons,
          ih t2 xt (by simpa using hlen)]
        ring

theorem dot_map_div (p : ℚ) (l x : List ℚ) :
    dot (l.map (fun v => v / p)) x = dot l x / p := by
  induction l generalizing x with
  | nil => simp [dot]
  | cons a t ih =>
    cases x with
    | nil => simp [dot_nil_right]
    | cons x0 xt =>
      rw [List.map_cons, dot_cons, dot_cons, ih xt]
      ring

theorem dot_all_zero (l x : List ℚ) (h : ∀ c < l.length, l.getD c 0 = 0) : dot l x = 0 := by
  induction l generalizing x with
  | nil => simp [dot]
  | cons a t ih =>
    cases x with
    | nil => simp [dot_nil_right]
    | cons x0 xt =>
      have ha : a = 0 := by simpa using h 0 (by simp)
      have ht : ∀ c < t.length, t.getD c 0 = 0 := fun c hc => by
        simpa using h (c + 1) (by simpa using hc)
      rw [dot_cons, ih xt ht, ha]; ring

/-- Dot product with a standard-basis row reads off one coordinate. -/
theorem dot_delta (l x : List ℚ) (i : ℕ) (hi : i < l.length) (hx : x.length = l.length)
    (h : ∀ c < l.length, l.getD c 0 = if c = i then 1 else 0) :
    dot l x = x.getD i 0 := by
  induction l generalizing x i with
  | nil => simp at hi
  | cons a t ih =>
    cases x with
    | nil => simp at hx
    | cons x0 xt =>
      cases i with
      | zero =>
        have ha : a = 1 := by simpa using h 0 (by simp)
        have ht : ∀ c < t.length, t.getD c 0 = 0 := fun c hc => by
          simpa using h (c + 1) (by simpa using hc)
        rw [dot_cons, dot_all_zero t xt ht, ha]; simp
      | succ i' =>
        have ha : a = 0 := by simpa using h 0 (by simp)
        have ht : ∀ c < t.length, t.getD c 0 = if c = i' then 1 else 0 := fun c hc => by
          simpa using h (c + 1) (by simpa using hc)
        rw [dot_cons, ih xt i' (by simpa using hi) (by simpa using hx) ht, ha]
        simp

/-! ## Scanner lemmas -/

theorem getD_mem {α : Type} (l : List α) (k : ℕ) (d : α) (h : k < l.length) :
    l.getD k d ∈ l := by
  rw [List.getD_eq_getElem l d h]
  exact List.getElem_mem h

theorem scanAux_neg_iff {α : Type} (p : α → Bool) (l : List α) (i : ℕ) :
    scanAux p l i = -1 ↔ ∀ a ∈ l, p a = true := by
  induction l generalizing i with
  | nil => simp [scanAux]
  | cons a t ih =>
    by_cases hp : p a = true
    · simp [scanAux, hp, ih]
    · simp only [scanAux, if_neg hp]
      constructor
      · intro h; omega
      · intro h; exact absurd (h a (List.mem_cons_self a t)) hp

theorem scanAux_cases {α : Type} (p : α → Bool) (l : List α) (i : ℕ) :
    scanAux p l i = -1 ∨ ∃ k : ℕ, scanAux p l i = (k : Int) ∧ i ≤ k := by
  induction l generalizing i with
  | nil => left; rfl
  | cons a t ih =>
    by_cases hp : p a = true
    · rcases ih (i + 1) with h | ⟨k, hk, hik⟩
      · left; simpa [scanAux, hp] using h
      · right; exact ⟨k, by simpa [scanAux, hp] using hk, by omega⟩
    · right; exact ⟨i, by simp [scanAux, hp], Nat.le_refl i⟩

theorem scanAux_eq_coe {α : Type} (p : α → Bool) (d : α) (l : List α) (i k : ℕ)
    (h : scanAux p l i = (k : Int)) :
    i ≤ k ∧ k - i < l.length ∧ p (l.getD (k - i) d) = false ∧
      ∀ m < k - i, p (l.getD m d) = true := by
  induction l generalizing i with
  | nil => simp only [scanAux] at h; omega
  | cons a t ih =>
    by_cases hp : p a = true
    · have h' : scanAux p t (i + 1) = (k : Int) := by simpa [scanAux, hp] using h
      obtain ⟨h1, h2, h3, h4⟩ := ih (i + 1) h'
      refine ⟨by omega, by simp only [List.length_cons]; omega, ?_, ?_⟩
      · have hki : k - i = (k - (i + 1)) + 1 := by omega
        rw [hki]; simpa using h3
      · intro m hm
        cases m with
        | zero => simpa using hp
        | succ m' =>
          have : m' < k - (i + 1) := by omega
          simpa using h4 m' this
    · have hik : (i : Int) = (k : Int) := by simpa [scanAux, hp] using h
      have hik' : i = k := by exact_mod_cast hik
      subst hik'
      refine ⟨Nat.le_refl i, by simp, ?_, ?_⟩
      · simpa [Nat.sub_self] using hp
      · intro m hm; omega

theorem scanAux_found {α : Type} (p : α → Bool) (d : α) (l : List α) (i r : ℕ)
    (hr : r < l.length) (hfalse : p (l.getD r d) = false)
    (hmin : ∀ m < r, p (l.getD m d) = true) :
    scanAux p l i = ((i + r : ℕ) : Int) := by
  induction l generalizing i r with
  | nil => simp at hr
  | cons a t ih =>
    cases r with
    | zero =>
      have hpa : p a = false := by simpa using hfalse
      simp [scanAux, hpa]
    | succ r' =>
      have hpa : p a = true := by simpa using hmin 0 (by omega)
      have := ih (i + 1) r' (by simpa using hr) (by simpa using hfalse)
        (fun m hm => by simpa using hmin (m + 1) (by omega))
      rw [scanAux, if_pos hpa, this]
      congr 1; omega

/-- What it means for the column scanner to return a row index `r`:
`r` is in range, at least `starting_row`, its entry in the column is non-zero
(beyond the `1e-5` tolerance), and every row between `starting_row` and `r`
has a zero entry there. -/
theorem col_scan_eq_coe (M : Mat) (c s r : ℕ)
    (h : get_index_first_non_zero_from_column M c s = (r : Int)) :
    s ≤ r ∧ r < M.length ∧ np_isclose_zero atolScan (entry M r c) = false ∧
      ∀ m, s ≤ m → m < r → np_isclose_zero atolScan (entry M m c) = true := by
  obtain ⟨h1, h2, h3, h4⟩ := scanAux_eq_coe _ ([] : List ℚ) _ s r h
  rw [List.length_drop] at h2
  have hrM : r < M.length := by omega
  refine ⟨h1, hrM, ?_, ?_⟩
  · rw [getD_drop] at h3
    have : s + (r - s) = r := by omega
    rw [this] at h3
    exact h3
  · intro m hsm hmr
    have := h4 (m - s) (by omega)
    rw [getD_drop] at this
    have hm : s + (m - s) = m := by omega
    rw [hm] at this
    exact this

/-- The column scanner returns `-1` exactly when every entry of the column
from `starting_row` through the last row is within tolerance of zero
(vacuously, also when `starting_row` is past the last row). -/
theorem col_scan_neg_iff (M : Mat) (c s : ℕ) :
    get_index_first_non_zero_from_column M c s = -1 ↔
      ∀ r, s ≤ r → r < M.length → np_isclose_zero atolScan (entry M r c) = true := by
  rw [get_index_first_non_zero_from_column, scanAux_neg_iff]
  constructor
  · intro h r hsr hrM
    have hk : r - s < (M.drop s).length := by rw [List.length_drop]; omega
    have := h ((M.drop s).getD (r - s) []) (getD_mem _ _ _ hk)
    rw [getD_drop] at this
    have hr : s + (r - s) = r := by omega
    rw [hr] at this
    exact this
  · intro h a ha
    obtain ⟨k, hk, hget⟩ := List.mem_iff_getElem.mp ha
    have hald : a = (M.drop s).getD k [] := by rw [List.getD_eq_getElem _ _ hk, hget]
    have hkM : s + k < M.length := by
      rw [List.length_drop] at hk; omega
    rw [hald, getD_drop]
    exact h (s + k) (by omega) hkM

theorem col_scan_cases (M : Mat) (c s : ℕ) :
    get_index_first_non_zero_from_column M c s = -1 ∨
      ∃ r : ℕ, get_index_first_non_zero_from_column M c s = (r : Int) ∧ s ≤ r := by
  exact scanAux_cases _ _ _

/-- If row `row` (with the constants column removed) starts with `r` entries
within tolerance of zero followed by one beyond tolerance, the row scanner in
augmented mode returns `r`. -/
theorem row_scan_found (M : Mat) (row r : ℕ)
    (hr : r < (M.getD row []).length - 1)
    (hfalse : np_isclose_zero atolScan (entry M row r) = false)
    (hmin : ∀ m < r, np_isclose_zero atolScan (entry M row m) = true) :
    get_index_first_non_zero_from_row M row true = (r : Int) := by
  rw [get_index_first_non_zero_from_row]
  simp only [if_true]
  have hmap : (M.map (fun r => r.dropLast)).getD row [] = (M.getD row []).dropLast := by
    have := getD_map_pres (fun (r : List ℚ) => r.dropLast) M row []
    simpa using this
  rw [hmap]
  have hlen : (M.getD row []).dropLast.length = (M.getD row []).length - 1 :=
    List.length_dropLast _
  have hgetDL : ∀ m, m < (M.getD row []).length - 1 →
      (M.getD row []).dropLast.getD m 0 = entry M row m := by
    intro m hm
    rw [List.dropLast_eq_take, getD_take _ _ _ _ hm]
    rfl
  have := scanAux_found (fun v => np_isclose_zero atolScan v) 0
    ((M.getD row []).dropLast) 0 r (by omega)
    (by rw [hgetDL r hr]; exact hfalse)
    (fun m hm => by rw [hgetDL m (by omega)]; exact hmin m hm)
  simpa using this

/-! ## Entry, swap and shape lemmas -/

theorem entry_set_ne (M : Mat) (k : ℕ) (r : List ℚ) (i j : ℕ) (h : i ≠ k) :
    entry (M.set k r) i j = entry M i j := by
  unfold entry
  rw [getD_set_ne _ _ _ _ _ (fun he => h he.symm)]

theorem entry_set_eq (M : Mat) (k : ℕ) (r : List ℚ) (j : ℕ) (h : k < M.length) :
    entry (M.set k r) k j = r.getD j 0 := by
  unfold entry
  rw [getD_set_eq _ _ _ _ h]

theorem length_swap_rows (M : Mat) (i j : ℕ) : (swap_rows M i j).length = M.length := by
  simp [swap_rows]

theorem getD_swap_right (M : Mat) (i j : ℕ) (hj : j < M.length) :
    (swap_rows M i j).getD j [] = M.getD i [] := by
  unfold swap_rows
  rw [getD_set_eq _ _ _ _ (by simpa using hj)]

theorem getD_swap_left (M : Mat) (i j : ℕ) (hi : i < M.length) :
    i ≠ j → (swap_rows M i j).getD i [] = M.getD j [] := by
  intro hij
  unfold swap_rows
  rw [getD_set_ne _ _ _ _ _ (fun h => hij h.symm), getD_set_eq _ _ _ _ hi]

theorem getD_swap_other (M : Mat) (i j a : ℕ) (hai : a ≠ i) (haj : a ≠ j) :
    (swap_rows M i j).getD a [] = M.getD a [] := by
  unfold swap_rows
  rw [getD_set_ne _ _ _ _ _ (fun h => haj h.symm), getD_set_ne _ _ _ _ _ (fun h => hai h.symm)]

theorem swap_rows_self (M : Mat) (i : ℕ) : swap_rows M i i = M := by
  unfold swap_rows
  rw [List.set_set]
  by_cases h : i < M.length
  · exact set_getD_self M i [] h
  · exact List.set_eq_of_length_le (by omega)

/-- Every row of `M` has length `L`. -/
def RowsLen (M : Mat) (L : ℕ) : Prop := ∀ r ∈ M, r.length = L

theorem rowsLen_getD (M : Mat) (L i : ℕ) (h : RowsLen M L) (hi : i < M.length) :
    (M.getD i []).length = L :=
  h _ (getD_mem M i [] hi)

theorem rowsLen_set (M : Mat) (L k : ℕ) (r : List ℚ) (h : RowsLen M L) (hr : r.length = L) :
    RowsLen (M.set k r) L := by
  intro s hs
  rcases List.mem_or_eq_of_mem_set hs with h' | h'
  · exact h s h'
  · rw [h']; exact hr

theorem rowsLen_swap_rows (M : Mat) (L i j : ℕ) (h : RowsLen M L)
    (hi : i < M.length) (hj : j < M.length) : RowsLen (swap_rows M i j) L := by
  unfold swap_rows
  exact rowsLen_set _ _ _ _ (rowsLen_set _ _ _ _ h (rowsLen_getD _ _ _ h hj))
    (rowsLen_getD _ _ _ h hi)

theorem length_normalize_row (M : Mat) (row : ℕ) (p : ℚ) :
    (normalize_row M row p).length = M.length := by
  simp [normalize_row]

theorem rowsLen_normalize_row (M : Mat) (L row : ℕ) (p : ℚ) (h : RowsLen M L) :
    RowsLen (normalize_row M row p) L := by
  by_cases hrow : row < M.length
  · refine rowsLen_set _ _ _ _ h ?_
    rw [List.length_map]
    exact rowsLen_getD _ _ _ h hrow
  · unfold normalize_row
    rw [List.set_eq_of_length_le (by omega)]
    exact h

theorem length_elim_step (pc pr : ℕ) (M : Mat) (j : ℕ) :
    (elim_step pc pr M j).length = M.length := by
  simp [elim_step]

theorem rowsLen_elim_step (pc pr : ℕ) (M : Mat) (L j : ℕ) (h : RowsLen M L)
    (hpr : pr < M.length) : RowsLen (elim_step pc pr M j) L := by
  by_cases hj : j < M.length
  · refine rowsLen_set _ _ _ _ h ?_
    rw [List.length_zipWith, rowsLen_getD _ _ _ h hj, rowsLen_getD _ _ _ h hpr]
    omega
  · unfold elim_step
    rw [List.set_eq_of_length_le (by omega)]
    exact h

theorem length_eliminate_below (M : Mat) (row num_rows : ℕ) :
    (eliminate_below M row num_rows).length = M.length := by
  unfold eliminate_below
  generalize List.range' (row + 1) (num_rows - (row + 1)) = js
  induction js generalizing M with
  | nil => rfl
  | cons j t ih => rw [List.foldl_cons, ih, length_elim_step]

theorem rowsLen_eliminate_below (M : Mat) (L row num_rows : ℕ) (h : RowsLen M L)
    (hrow : row < M.length) : RowsLen (eliminate_below M row num_rows) L := by
  unfold eliminate_below
  generalize List.range' (row + 1) (num_rows - (row + 1)) = js
  induction js generalizing M with
  | nil => exact h
  | cons j t ih =>
    rw [List.foldl_cons]
    exact ih _ (rowsLen_elim_step _ _ _ _ _ h hrow) (by rw [length_elim_step]; exact hrow)

/-- Skip branch of the loop body (`continue`): pivot candidate close to zero
and no replacement strictly below — the matrix is left untouched. -/
theorem ref_process_row_skip (num_rows : ℕ) (M : Mat) (row : ℕ)
    (h1 : np_isclose_zero atolDefault (entry M row row) = true)
    (h2 : get_index_first_non_zero_from_column M row (row + 1) = -1) :
    ref_process_row num_rows M row = M := by
  unfold ref_process_row
  simp [h1, h2]

/-- Swap branch: pivot candidate close to zero, replacement row `r` found. -/
theorem ref_process_row_swap (num_rows : ℕ) (M : Mat) (row r : ℕ)
    (h1 : np_isclose_zero atolDefault (entry M row row) = true)
    (h2 : get_index_first_non_zero_from_column M row (row + 1) = (r : Int)) :
    ref_process_row num_rows M row =
      eliminate_below (normalize_row (swap_rows M row r) row
        (entry (swap_rows M row r) row row)) row num_rows := by
  unfold ref_process_row
  have hne : get_index_first_non_zero_from_column M row (row + 1) ≠ -1 := by
    rw [h2]; omega
  simp [h1, h2, hne]

/-- Direct branch: pivot candidate not close to zero. -/
theorem ref_process_row_direct (num_rows : ℕ) (M : Mat) (row : ℕ)
    (h1 : np_isclose_zero atolDefault (entry M row row) = false) :
    ref_process_row num_rows M row =
      eliminate_below (normalize_row M row (entry M row row)) row num_rows := by
  unfold ref_process_row
  simp [h1]

theorem length_ref_process_row (num_rows : ℕ) (M : Mat) (row : ℕ) :
    (ref_process_row num_rows M row).length = M.length := by
  by_cases hc : np_isclose_zero atolDefault (entry M row row) = true
  · rcases col_scan_cases M row (row + 1) with hneg | ⟨r, hr, _⟩
    · rw [ref_process_row_skip _ _ _ hc hneg]
    · rw [ref_process_row_swap _ _ _ _ hc hr, length_eliminate_below,
        length_normalize_row, length_swap_rows]
  · rw [ref_process_row_direct _ _ _ (by simpa using hc), length_eliminate_below,
      length_normalize_row]

theorem rowsLen_ref_process_row (num_rows : ℕ) (M : Mat) (L row : ℕ) (h : RowsLen M L)
    (hrow : row < M.length) : RowsLen (ref_process_row num_rows M row) L := by
  by_cases hc : np_isclose_zero atolDefault (entry M row row) = true
  · rcases col_scan_cases M row (row + 1) with hneg | ⟨r, hr, hsr⟩
    · rw [ref_process_row_skip _ _ _ hc hneg]; exact h
    · rw [ref_process_row_swap _ _ _ _ hc hr]
      obtain ⟨_, hrM, _, _⟩ := col_scan_eq_coe M row (row + 1) r hr
      have hswap : RowsLen (swap_rows M row r) L :=
        rowsLen_swap_rows _ _ _ _ h hrow hrM
      refine rowsLen_eliminate_below _ _ _ _ (rowsLen_normalize_row _ _ _ _ hswap) ?_
      rw [length_normalize_row, length_swap_rows]
      exact hrow
  · rw [ref_process_row_direct _ _ _ (by simpa using hc)]
    refine rowsLen_eliminate_below _ _ _ _ (rowsLen_normalize_row _ _ _ _ h) ?_
    rw [length_normalize_row]
    exact hrow

theorem refState_zero (A B : Mat) : refState A B 0 = augmented_matrix A B := rfl

theorem refState_succ (A B : Mat) (k : ℕ) :
    refState A B (k + 1) = ref_process_row A.length (refState A B k) k := by
  unfold refState
  rw [List.range_succ, List.foldl_append, List.foldl_cons, List.foldl_nil]

theorem augmented_length (A B : Mat) (n : ℕ) (hA : A.length = n) (hB : B.length = n) :
    (augmented_matrix A B).length = n := by
  simp [augmented_matrix, hA, hB]

theorem augmented_getD (A B : Mat) (i : ℕ) (hi : i < A.length) (hi' : i < B.length) :
    (augmented_matrix A B).getD i [] = A.getD i [] ++ B.getD i [] := by
  have hlen : i < (augmented_matrix A B).length := by
    simp [augmented_matrix]; omega
  rw [List.getD_eq_getElem _ _ hlen, List.getD_eq_getElem _ _ hi, List.getD_eq_getElem _ _ hi']
  exact List.getElem_zipWith ..

theorem augmented_rowsLen (A B : Mat) (n k : ℕ) (hA : isRect A n n) (hB : isRect B n k) :
    RowsLen (augmented_matrix A B) (n + k) := by
  intro r hr
  obtain ⟨i, hi, hget⟩ := List.mem_iff_getElem.mp hr
  have hiA : i < A.length := by
    simp [augmented_matrix] at hi; omega
  have hiB : i < B.length := by
    simp [augmented_matrix] at hi; omega
  have := augmented_getD A B i hiA hiB
  rw [List.getD_eq_getElem _ _ hi, hget] at this
  rw [this, List.length_append, hA.2 _ (getD_mem _ _ _ hiA), hB.2 _ (getD_mem _ _ _ hiB)]

/-! ## Elimination-fold lemmas

`eliminate_below` (forward pass) and the upward pass of `back_substitution`
both fold `elim_step pc pr` over a duplicate-free list of target rows that
does not contain the pivot row `pr`.  The next lemmas describe such folds. -/

theorem length_elim_fold (pc pr : ℕ) (js : List ℕ) (M : Mat) :
    (js.foldl (elim_step pc pr) M).length = M.length := by
  induction js generalizing M with
  | nil => rfl
  | cons j t ih => rw [List.foldl_cons, ih, length_elim_step]

theorem rowsLen_elim_fold (pc pr : ℕ) (js : List ℕ) (M : Mat) (L : ℕ)
    (h : RowsLen M L) (hpr : pr < M.length) :
    RowsLen (js.foldl (elim_step pc pr) M) L := by
  induction js generalizing M with
  | nil => exact h
  | cons j t ih =>
    rw [List.foldl_cons]
    exact ih _ (rowsLen_elim_step _ _ _ _ _ h hpr) (by rw [length_elim_step]; exact hpr)

/-- A row outside the target list is never modified by the fold. -/
theorem elim_fold_untouched (pc pr : ℕ) (js : List ℕ) (M : Mat) (i : ℕ) (hi : i ∉ js) :
    (js.foldl (elim_step pc pr) M).getD i [] = M.getD i [] := by
  induction js generalizing M with
  | nil => rfl
  | cons j t ih =>
    rw [List.foldl_cons, ih _ (fun h => hi (List.mem_cons_of_mem j h))]
    unfold elim_step
    exact getD_set_ne _ _ _ _ _ (fun h => hi (h ▸ List.mem_cons_self j t))

/-- Final value of a target row of the fold: since the target list has no
duplicates and omits the pivot row, row `j` is updated exactly once, from its
original value and the original pivot row. -/
theorem elim_fold_row (pc pr : ℕ) (js : List ℕ) (M : Mat) (j : ℕ)
    (hnodup : js.Nodup) (hpr : pr ∉ js) (hj : j ∈ js) (hjM : j < M.length) :
    (js.foldl (elim_step pc pr) M).getD j [] =
      List.zipWith (fun a b => a - entry M j pc * b) (M.getD j []) (M.getD pr []) := by
  induction js generalizing M with
  | nil => cases hj
  | cons j0 t ih =>
    rw [List.foldl_cons]
    have hnd := List.nodup_cons.mp hnodup
    rcases List.mem_cons.mp hj with rfl | hjt
    · rw [elim_fold_untouched _ _ _ _ _ hnd.1]
      unfold elim_step
      exact getD_set_eq _ _ _ _ hjM
    · have hjj0 : j ≠ j0 := by
        rintro rfl; exact hnd.1 hjt
      have hprj0 : pr ≠ j0 := by
        rintro rfl; exact hpr (List.mem_cons_self pr t)
      rw [ih (elim_step pc pr M j0) hnd.2 (fun h => hpr (List.mem_cons_of_mem j0 h)) hjt
        (by rw [length_elim_step]; exact hjM)]
      unfold elim_step entry
      rw [getD_set_ne _ _ _ _ _ (fun h => hjj0 h.symm),
        getD_set_ne _ _ _ _ _ (fun h => hprj0 h.symm)]

/-! ## Solution preservation

Each pass of the algorithm applies invertible row operations, so any `x`
solving the system carried by the transformed matrix also solves the system
carried by the matrix before the operation.  Only this backward direction is
needed: the final matrix exhibits a solution, which transports back to the
original augmented matrix. -/

theorem ne_zero_of_isclose_false (atol v : ℚ) (h : np_isclose_zero atol v = false)
    (hatol : 0 ≤ atol) : v ≠ 0 := by
  intro hv
  rw [np_isclose_zero, hv] at h
  simp [hatol] at h

theorem atolScan_nonneg : (0 : ℚ) ≤ atolScan := by norm_num [atolScan]

theorem atolDefault_nonneg : (0 : ℚ) ≤ atolDefault := by norm_num [atolDefault]

theorem solM_swap_back (n : ℕ) (M : Mat) (i j : ℕ) (x : List ℚ)
    (hi : i < M.length) (hj : j < M.length)
    (h : SolM n (swap_rows M i j) x) : SolM n M x := by
  by_cases hij : i = j
  · subst hij; rwa [swap_rows_self] at h
  · intro a ha
    by_cases hai : a = i
    · subst hai
      have := h j (by rw [length_swap_rows]; exact hj)
      rwa [getD_swap_right _ _ _ hj] at this
    · by_cases haj : a = j
      · subst haj
        have := h i (by rw [length_swap_rows]; exact hi)
        rwa [getD_swap_left _ _ _ hi hij] at this
      · have := h a (by rw [length_swap_rows]; exact ha)
        rwa [getD_swap_other _ _ _ _ hai haj] at this

theorem solM_normalize_back (n : ℕ) (M : Mat) (row : ℕ) (p : ℚ) (x : List ℚ)
    (hp : p ≠ 0) (h : SolM n (normalize_row M row p) x) : SolM n M x := by
  by_cases hrowM : row < M.length
  · intro a ha
    by_cases har : a = row
    · subst har
      have hs := h a (by rw [length_normalize_row]; exact ha)
      rw [normalize_row, getD_set_eq _ _ _ _ ha, ← List.map_take, dot_map_div,
        getD_map_zero _ (by simp) _ _] at hs
      have h2 := congrArg (fun t => t * p) hs
      simpa [div_mul_cancel₀, hp] using h2
    · have := h a (by rw [length_normalize_row]; exact ha)
      rwa [normalize_row, getD_set_ne _ _ _ _ _ (fun he => har he.symm)] at this
  · rwa [normalize_row, List.set_eq_of_length_le (by omega)] at h

theorem solM_elim_step_back (n pc pr : ℕ) (M : Mat) (j : ℕ) (x : List ℚ)
    (hpr : pr < M.length) (hjpr : j ≠ pr)
    (hlen : j < M.length → (M.getD j []).length = (M.getD pr []).length)
    (h : SolM n (elim_step pc pr M j) x) : SolM n M x := by
  by_cases hjM : j < M.length
  · intro a ha
    by_cases haj : a = j
    · subst haj
      have hsatj := h a (by rw [length_elim_step]; exact ha)
      have hsatpr := h pr (by rw [length_elim_step]; exact hpr)
      rw [elim_step, getD_set_eq _ _ _ _ ha] at hsatj
      rw [elim_step, getD_set_ne _ _ _ _ _ hjpr] at hsatpr
      rw [take_zipWith',
        dot_sub_smul _ _ _ _ (by rw [List.length_take, List.length_take, hlen hjM]),
        getD_zipWith_zero _ (by ring) _ _ (hlen hjM)] at hsatj
      have : dot ((M.getD a []).take n) x - entry M a pc * dot ((M.getD pr []).take n) x =
          (M.getD a []).getD n 0 - entry M a pc * ((M.getD pr []).getD n 0) := hsatj
      rw [hsatpr] at this
      linarith
    · have := h a (by rw [length_elim_step]; exact ha)
      rwa [elim_step, getD_set_ne _ _ _ _ _ (fun he => haj he.symm)] at this
  · rwa [elim_step, List.set_eq_of_length_le (by omega)] at h

theorem solM_elim_fold_back (n pc pr : ℕ) (js : List ℕ) (M : Mat) (x : List ℚ) (L : ℕ)
    (hL : RowsLen M L) (hpr : pr < M.length) (hprjs : pr ∉ js)
    (h : SolM n (js.foldl (elim_step pc pr) M) x) : SolM n M x := by
  induction js generalizing M with
  | nil => exact h
  | cons j t ih =>
    rw [List.foldl_cons] at h
    have h1 : SolM n (elim_step pc pr M j) x := by
      refine ih (elim_step pc pr M j) (rowsLen_elim_step _ _ _ _ _ hL hpr) ?_
        (fun hmem => hprjs (List.mem_cons_of_mem j hmem)) h
      rw [length_elim_step]; exact hpr
    refine solM_elim_step_back n pc pr M j x hpr
      (fun he => hprjs (he ▸ List.mem_cons_self j t)) ?_ h1
    intro hjM
    rw [rowsLen_getD _ _ _ hL hjM, rowsLen_getD _ _ _ hL hpr]

theorem row_not_mem_range' (row m : ℕ) : row ∉ List.range' (row + 1) m := by
  intro hmem
  rw [List.mem_range'_1] at hmem
  omega

theorem solM_ref_process_row_back (num_rows n : ℕ) (M : Mat) (row : ℕ) (x : List ℚ) (L : ℕ)
    (hL : RowsLen M L) (hrow : row < M.length)
    (h : SolM n (ref_process_row num_rows M row) x) : SolM n M x := by
  by_cases hc : np_isclose_zero atolDefault (entry M row row) = true
  · rcases col_scan_cases M row (row + 1) with hneg | ⟨r, hr, hsr⟩
    · rwa [ref_process_row_skip _ _ _ hc hneg] at h
    · rw [ref_process_row_swap _ _ _ _ hc hr] at h
      obtain ⟨hsr', hrM, hnz, _⟩ := col_scan_eq_coe M row (row + 1) r hr
      have hrowr : row ≠ r := by omega
      have hpivot : entry (swap_rows M row r) row row = entry M r row := by
        unfold entry
        rw [getD_swap_left _ _ _ hrow hrowr]
      have hp : entry (swap_rows M row r) row row ≠ 0 := by
        rw [hpivot]
        exact ne_zero_of_isclose_false _ _ hnz atolScan_nonneg
      rw [eliminate_below] at h
      have h1 := solM_elim_fold_back n row row _ _ x L
        (rowsLen_normalize_row _ _ _ _ (rowsLen_swap_rows _ _ _ _ hL hrow hrM))
        (by rw [length_normalize_row, length_swap_rows]; exact hrow)
        (row_not_mem_range' row _) h
      have h2 := solM_normalize_back n _ row _ x hp h1
      exact solM_swap_back n M row r x hrow hrM h2
  · rw [ref_process_row_direct _ _ _ (by simpa using hc)] at h
    have hp : entry M row row ≠ 0 :=
      ne_zero_of_isclose_false _ _ (by simpa using hc) atolDefault_nonneg
    rw [eliminate_below] at h
    have h1 := solM_elim_fold_back n row row _ _ x L
      (rowsLen_normalize_row _ _ _ _ hL)
      (by rw [length_normalize_row]; exact hrow)
      (row_not_mem_range' row _) h
    exact solM_normalize_back n M row _ x hp h1

theorem refState_length (A B : Mat) (n k : ℕ) (hA : A.length = n) (hB : B.length = n) :
    (refState A B k).length = n := by
  induction k with
  | zero => rw [refState_zero]; exact augmented_length A B n hA hB
  | succ m ih => rw [refState_succ, length_ref_process_row]; exact ih

theorem refState_rowsLen (A B : Mat) (n k : ℕ) (hA : isRect A n n) (hB : isRect B n 1)
    (hk : k ≤ n) : RowsLen (refState A B k) (n + 1) := by
  induction k with
  | zero => rw [refState_zero]; exact augmented_rowsLen A B n 1 hA hB
  | succ m ih =>
    rw [refState_succ]
    refine rowsLen_ref_process_row _ _ _ _ (ih (by omega)) ?_
    rw [refState_length A B n m hA.1 hB.1]
    omega

theorem solM_refState_back (A B : Mat) (n k : ℕ) (x : List ℚ)
    (hA : isRect A n n) (hB : isRect B n 1) (hk : k ≤ n)
    (h : SolM n (refState A B k) x) : SolM n (augmented_matrix A B) x := by
  induction k with
  | zero => rwa [refState_zero] at h
  | succ m ih =>
    rw [refState_succ] at h
    refine ih (by omega) ?_
    refine solM_ref_process_row_back _ n _ m x (n + 1)
      (refState_rowsLen A B n m hA hB (by omega)) ?_ h
    rw [refState_length A B n m hA.1 hB.1]
    omega

/-! ## Forward-pass invariant: unit pivots and zeros below -/

theorem entry_swap_left' (M : Mat) (i j c : ℕ) (hi : i < M.length) (hij : i ≠ j) :
    entry (swap_rows M i j) i c = entry M j c := by
  unfold entry
  rw [getD_swap_left _ _ _ hi hij]

theorem entry_swap_right' (M : Mat) (i j c : ℕ) (hj : j < M.length) :
    entry (swap_rows M i j) j c = entry M i c := by
  unfold entry
  rw [getD_swap_right _ _ _ hj]

theorem entry_swap_other' (M : Mat) (i j a c : ℕ) (hai : a ≠ i) (haj : a ≠ j) :
    entry (swap_rows M i j) a c = entry M a c := by
  unfold entry
  rw [getD_swap_other _ _ _ _ hai haj]

theorem entry_normalize_self (M : Mat) (row c : ℕ) (p : ℚ) (hrow : row < M.length) :
    entry (normalize_row M row p) row c = entry M row c / p := by
  unfold normalize_row
  rw [entry_set_eq _ _ _ _ hrow, getD_map_zero _ (by simp)]
  rfl

theorem entry_normalize_other (M : Mat) (row c a : ℕ) (p : ℚ) (ha : a ≠ row) :
    entry (normalize_row M row p) a c = entry M a c := by
  unfold normalize_row
  exact entry_set_ne _ _ _ _ _ ha

theorem mem_range_elim (row num_rows j : ℕ) :
    j ∈ List.range' (row + 1) (num_rows - (row + 1)) ↔ row < j ∧ j < num_rows := by
  rw [List.mem_range'_1]
  omega

/-- Value of a target row of `eliminate_below` (a row strictly between the
pivot row and `num_rows`). -/
theorem entry_eliminate_below_target (M : Mat) (L row num_rows j c : ℕ)
    (hL : RowsLen M L) (hrowM : row < M.length) (hjM : j < M.length)
    (hj : row < j) (hjn : j < num_rows) :
    entry (eliminate_below M row num_rows) j c =
      entry M j c - entry M j row * entry M row c := by
  unfold eliminate_below
  unfold entry
  rw [elim_fold_row _ _ _ _ _ (List.nodup_range' _ _) (row_not_mem_range' _ _)
    ((mem_range_elim _ _ _).mpr ⟨hj, hjn⟩) hjM]
  rw [getD_zipWith_zero _ (by ring) _ _
    (by rw [rowsLen_getD _ _ _ hL hjM, rowsLen_getD _ _ _ hL hrowM])]
  rfl

/-- Rows at or above the pivot row, or at `num_rows` and beyond, are not
modified by `eliminate_below`. -/
theorem entry_eliminate_below_other (M : Mat) (row num_rows j c : ℕ)
    (hj : ¬(row < j ∧ j < num_rows)) :
    entry (eliminate_below M row num_rows) j c = entry M j c := by
  unfold eliminate_below entry
  rw [elim_fold_untouched _ _ _ _ _ (fun hmem => hj ((mem_range_elim _ _ _).mp hmem))]

/-- Row `i` of `M` is a completed pivot row: unit diagonal entry and zero
entries below it in column `i`. -/
def PivRow (n : ℕ) (M : Mat) (i : ℕ) : Prop :=
  entry M i i = 1 ∧ ∀ j, i < j → j < n → entry M j i = 0

/-- A completed pivot row is untouched by later loop iterations: the swap,
normalization and elimination of iteration `row > i` only combine rows with
index greater than `i`, whose column-`i` entries are all zero. -/
theorem step_preserves_pivrow (n : ℕ) (M : Mat) (row i : ℕ)
    (hlen : M.length = n) (hL : RowsLen M (n + 1))
    (hi_row : i < row) (hrow_n : row < n)
    (hp : PivRow n M i) : PivRow n (ref_process_row n M row) i := by
  obtain ⟨hdiag, hzeros⟩ := hp
  have hrowM : row < M.length := by omega
  by_cases hc : np_isclose_zero atolDefault (entry M row row) = true
  · rcases col_scan_cases M row (row + 1) with hneg | ⟨r, hr, hsr⟩
    · rw [ref_process_row_skip _ _ _ hc hneg]
      exact ⟨hdiag, hzeros⟩
    · rw [ref_process_row_swap _ _ _ _ hc hr]
      obtain ⟨hsr', hrM, hnz, _⟩ := col_scan_eq_coe M row (row + 1) r hr
      have hrowr : row ≠ r := by omega
      have hir : i ≠ r := by omega
      have hirow : i ≠ row := by omega
      set M1 := swap_rows M row r with hM1
      have hM1len : M1.length = n := by rw [hM1, length_swap_rows]; exact hlen
      have hM1L : RowsLen M1 (n + 1) := rowsLen_swap_rows _ _ _ _ hL hrowM hrM
      set p := entry M1 row row with hpdef
      set M2 := normalize_row M1 row p with hM2
      have hM2len : M2.length = n := by rw [hM2, length_normalize_row]; exact hM1len
      have hM2L : RowsLen M2 (n + 1) := rowsLen_normalize_row _ _ _ _ hM1L
      -- column-i entries of M1 (all rows > i still zero, row i untouched)
      have hM1diag : entry M1 i i = 1 := by
        rw [hM1, entry_swap_other' _ _ _ _ _ hirow hir]; exact hdiag
      have hM1zero : ∀ j, i < j → j < n → entry M1 j i = 0 := by
        intro j hij hjn
        by_cases hjrow : j = row
        · subst hjrow
          rw [hM1, entry_swap_left' _ _ _ _ hrowM hrowr]
          exact hzeros r (by omega) (by omega)
        · by_cases hjr : j = r
          · subst hjr
            rw [hM1, entry_swap_right' _ _ _ _ hrM]
            exact hzeros row hi_row hrow_n
          · rw [hM1, entry_swap_other' _ _ _ _ _ hjrow hjr]
            exact hzeros j hij hjn
      -- column-i entries of M2 (row `row` scaled: 0 / p = 0)
      have hM2diag : entry M2 i i = 1 := by
        rw [hM2, entry_normalize_other _ _ _ _ _ hirow]; exact hM1diag
      have hM2zero : ∀ j, i < j → j < n → entry M2 j i = 0 := by
        intro j hij hjn
        by_cases hjrow : j = row
        · subst hjrow
          rw [hM2, entry_normalize_self _ _ _ _ (by omega),
            hM1zero _ hij hjn]
          simp
        · rw [hM2, entry_normalize_other _ _ _ _ _ hjrow]
          exact hM1zero j hij hjn
      constructor
      · rw [entry_eliminate_below_other _ _ _ _ _ (by omega)]
        exact hM2diag
      · intro j hij hjn
        by_cases hjtarget : row < j ∧ j < n
        · rw [entry_eliminate_below_target _ (n + 1) _ _ _ _ hM2L (by omega)
            (by omega) hjtarget.1 hjtarget.2]
          rw [hM2zero j hij hjn, hM2zero row (by omega) hrow_n]
          ring
        · rw [entry_eliminate_below_other _ _ _ _ _ hjtarget]
          exact hM2zero j hij hjn
  · rw [ref_process_row_direct _ _ _ (by simpa using hc)]
    have hirow : i ≠ row := by omega
    set p := entry M row row with hpdef
    set M2 := normalize_row M row p with hM2
    have hM2len : M2.length = n := by rw [hM2, length_normalize_row]; exact hlen
    have hM2L : RowsLen M2 (n + 1) := rowsLen_normalize_row _ _ _ _ hL
    have hM2diag : entry M2 i i = 1 := by
      rw [hM2, entry_normalize_other _ _ _ _ _ hirow]; exact hdiag
    have hM2zero : ∀ j, i < j → j < n → entry M2 j i = 0 := by
      intro j hij hjn
      by_cases hjrow : j = row
      · subst hjrow
        rw [hM2, entry_normalize_self _ _ _ _ hrowM, hzeros _ hij hjn]
        simp
      · rw [hM2, entry_normalize_other _ _ _ _ _ hjrow]
        exact hzeros j hij hjn
    constructor
    · rw [entry_eliminate_below_other _ _ _ _ _ (by omega)]
      exact hM2diag
    · intro j hij hjn
      by_cases hjtarget : row < j ∧ j < n
      · rw [entry_eliminate_below_target _ (n + 1) _ _ _ _ hM2L (by omega)
          (by omega) hjtarget.1 hjtarget.2]
        rw [hM2zero j hij hjn, hM2zero row (by omega) hrow_n]
        ring
      · rw [entry_eliminate_below_other _ _ _ _ _ hjtarget]
        exact hM2zero j hij hjn

/-- An iteration whose row receives a valid pivot completes that row: after
normalization the diagonal entry is `1`, and the downward elimination zeroes
the column below it. -/
theorem step_establishes_pivrow (n : ℕ) (M : Mat) (row : ℕ)
    (hlen : M.length = n) (hL : RowsLen M (n + 1)) (hrow_n : row < n)
    (hvalid : has_valid_pivot M row = true) :
    PivRow n (ref_process_row n M row) row := by
  have hrowM : row < M.length := by omega
  by_cases hc : np_isclose_zero atolDefault (entry M row row) = true
  · have hscan : get_index_first_non_zero_from_column M row (row + 1) ≠ -1 := by
      rw [has_valid_pivot, hc] at hvalid
      simpa using hvalid
    rcases col_scan_cases M row (row + 1) with hneg | ⟨r, hr, hsr⟩
    · exact absurd hneg hscan
    · rw [ref_process_row_swap _ _ _ _ hc hr]
      obtain ⟨hsr', hrM, hnz, _⟩ := col_scan_eq_coe M row (row + 1) r hr
      have hrowr : row ≠ r := by omega
      set M1 := swap_rows M row r with hM1
      have hM1len : M1.length = n := by rw [hM1, length_swap_rows]; exact hlen
      have hM1L : RowsLen M1 (n + 1) := rowsLen_swap_rows _ _ _ _ hL hrowM hrM
      set p := entry M1 row row with hpdef
      have hpval : p = entry M r row := by
        rw [hpdef, hM1, entry_swap_left' _ _ _ _ hrowM hrowr]
      have hp : p ≠ 0 := by
        rw [hpval]
        exact ne_zero_of_isclose_false _ _ hnz atolScan_nonneg
      set M2 := normalize_row M1 row p with hM2
      have hM2len : M2.length = n := by rw [hM2, length_normalize_row]; exact hM1len
      have hM2L : RowsLen M2 (n + 1) := rowsLen_normalize_row _ _ _ _ hM1L
      have hM2diag : entry M2 row row = 1 := by
        rw [hM2, entry_normalize_self _ _ _ _ (by omega), ← hpdef, div_self hp]
      constructor
      · rw [entry_eliminate_below_other _ _ _ _ _ (by omega)]
        exact hM2diag
      · intro j hij hjn
        rw [entry_eliminate_below_target _ (n + 1) _ _ _ _ hM2L (by omega)
          (by omega) hij hjn]
        rw [hM2diag]
        ring
  · rw [ref_process_row_direct _ _ _ (by simpa using hc)]
    set p := entry M row row with hpdef
    have hp : p ≠ 0 :=
      ne_zero_of_isclose_false _ _ (by simpa using hc) atolDefault_nonneg
    set M2 := normalize_row M row p with hM2
    have hM2len : M2.length = n := by rw [hM2, length_normalize_row]; exact hlen
    have hM2L : RowsLen M2 (n + 1) := rowsLen_normalize_row _ _ _ _ hL
    have hM2diag : entry M2 row row = 1 := by
      rw [hM2, entry_normalize_self _ _ _ _ hrowM, ← hpdef, div_self hp]
    constructor
    · rw [entry_eliminate_below_other _ _ _ _ _ (by omega)]
      exact hM2diag
    · intro j hij hjn
      rw [entry_eliminate_below_target _ (n + 1) _ _ _ _ hM2L (by omega)
        (by omega) hij hjn]
      rw [hM2diag]
      ring

/-- After `k` iterations, every earlier row that received a valid pivot has a
unit diagonal entry and zeros below it. -/
theorem refState_pivrow (A B : Mat) (n : ℕ) (hA : isRect A n n) (hB : isRect B n 1) :
    ∀ k, k ≤ n → ∀ i < k, has_valid_pivot (refState A B i) i = true →
      PivRow n (refState A B k) i := by
  intro k
  induction k with
  | zero => intro _ i hi; omega
  | succ m ih =>
    intro hm i hi hvalid
    have hstep : refState A B (m + 1) = ref_process_row n (refState A B m) m := by
      rw [refState_succ, hA.1]
    have hlen : (refState A B m).length = n := refState_length A B n m hA.1 hB.1
    have hL : RowsLen (refState A B m) (n + 1) := refState_rowsLen A B n m hA hB (by omega)
    rcases Nat.lt_succ_iff_lt_or_eq.mp hi with hi' | rfl
    · rw [hstep]
      exact step_preserves_pivrow n _ m i hlen hL hi' (by omega) (ih (by omega) i hi' hvalid)
    · rw [hstep]
      exact step_establishes_pivrow n _ i hlen hL (by omega) hvalid

/-! ## Back-substitution invariant

On a matrix whose coefficient part is upper triangular with unit diagonal,
the upward pass turns the coefficient part into the identity; column `c` is a
standard basis column once rows `n - 1` down to `c` have been processed. -/

/-- Invariant of the upward pass with rows `n - 1, ..., m` already processed:
unit diagonal, zeros strictly below the diagonal, and every coefficient
column `c ≥ m` cleared outside its diagonal entry. -/
def BsInv (n : ℕ) (M : Mat) (m : ℕ) : Prop :=
  (∀ i < n, entry M i i = 1) ∧
  (∀ i j, i < j → j < n → entry M j i = 0) ∧
  (∀ c, m ≤ c → c < n → ∀ k < n, k ≠ c → entry M k c = 0)

theorem entry_bs_fold_target (M : Mat) (L r k c : ℕ)
    (hL : RowsLen M L) (hrM : r < M.length) (hkM : k < M.length) (hk : k < r) :
    entry ((List.range r).foldl (elim_step r r) M) k c =
      entry M k c - entry M k r * entry M r c := by
  unfold entry
  rw [elim_fold_row _ _ _ _ _ (List.nodup_range r) (by simp) (List.mem_range.mpr hk) hkM]
  rw [getD_zipWith_zero _ (by ring) _ _
    (by rw [rowsLen_getD _ _ _ hL hkM, rowsLen_getD _ _ _ hL hrM])]
  rfl

theorem entry_bs_fold_other (M : Mat) (r k c : ℕ) (hk : ¬k < r) :
    entry ((List.range r).foldl (elim_step r r) M) k c = entry M k c := by
  unfold entry
  rw [elim_fold_untouched _ _ _ _ _ (fun hmem => hk (List.mem_range.mp hmem))]

/-- Under the invariant, the augmented row scanner finds the diagonal pivot
column of row `r`: the entries to its left are exactly zero (hence within
tolerance) and the diagonal entry is `1` (outside tolerance). -/
theorem bs_scan_diag (n : ℕ) (M : Mat) (r : ℕ)
    (hlen : M.length = n) (hL : RowsLen M (n + 1)) (hr : r < n)
    (hdiag : entry M r r = 1) (hleft : ∀ m < r, entry M r m = 0) :
    get_index_first_non_zero_from_row M r true = (r : Int) := by
  refine row_scan_found M r r ?_ ?_ ?_
  · rw [rowsLen_getD _ _ _ hL (by omega)]
    omega
  · rw [hdiag]
    norm_num [np_isclose_zero, atolScan]
  · intro m hm
    rw [hleft m hm]
    norm_num [np_isclose_zero, atolScan]

theorem back_sub_process_row_eq (M : Mat) (r : ℕ)
    (h : get_index_first_non_zero_from_row M r true = (r : Int)) :
    back_sub_process_row M r = (List.range r).foldl (elim_step r r) M := by
  unfold back_sub_process_row
  rw [h]
  have : ((r : Int) = -1) = False := by simp
  simp [this]

theorem length_bs_fold (M : Mat) (r : ℕ) :
    ((List.range r).foldl (elim_step r r) M).length = M.length :=
  length_elim_fold _ _ _ _

theorem bs_process_row_inv (n : ℕ) (M : Mat) (r : ℕ)
    (hlen : M.length = n) (hL : RowsLen M (n + 1)) (hr : r < n)
    (hinv : BsInv n M (r + 1)) : BsInv n (back_sub_process_row M r) r := by
  obtain ⟨hdiag, hbelow, hcols⟩ := hinv
  have hscan := bs_scan_diag n M r hlen hL hr (hdiag r hr)
    (fun m hm => hbelow m r hm hr)
  rw [back_sub_process_row_eq M r hscan]
  have hrM : r < M.length := by omega
  refine ⟨?_, ?_, ?_⟩
  · intro i hi
    by_cases hik : i < r
    · rw [entry_bs_fold_target M (n + 1) r i i hL hrM (by omega) hik,
        hbelow i r hik hr, hdiag i hi]
      ring
    · rw [entry_bs_fold_other M r i i hik]
      exact hdiag i hi
  · intro i j hij hjn
    by_cases hjk : j < r
    · rw [entry_bs_fold_target M (n + 1) r j i hL hrM (by omega) hjk,
        hbelow i j hij hjn, hbelow i r (by omega) hr]
      ring
    · rw [entry_bs_fold_other M r j i hjk]
      exact hbelow i j hij hjn
  · intro c hrc hcn k hkn hkc
    by_cases hck : c = r
    · subst hck
      by_cases hkr : k < c
      · rw [entry_bs_fold_target M (n + 1) c k c hL hrM (by omega) hkr, hdiag c hr]
        ring
      · rw [entry_bs_fold_other M c k c hkr]
        exact hbelow c k (by omega) hkn
    · have hc1 : r + 1 ≤ c := by omega
      by_cases hkr : k < r
      · rw [entry_bs_fold_target M (n + 1) r k c hL hrM (by omega) hkr,
          hcols c hc1 hcn k hkn hkc, hcols c hc1 hcn r hr (by omega)]
        ring
      · rw [entry_bs_fold_other M r k c hkr]
        exact hcols c hc1 hcn k hkn hkc

theorem bs_process_row_sol (n : ℕ) (M : Mat) (r : ℕ) (x : List ℚ)
    (hlen : M.length = n) (hL : RowsLen M (n + 1)) (hr : r < n)
    (hscan : get_index_first_non_zero_from_row M r true = (r : Int))
    (h : SolM n (back_sub_process_row M r) x) : SolM n M x := by
  rw [back_sub_process_row_eq M r hscan] at h
  exact solM_elim_fold_back n r r _ M x (n + 1) hL (by omega) (by simp) h

theorem length_bs_process_row (M : Mat) (r : ℕ) :
    (back_sub_process_row M r).length = M.length := by
  unfold back_sub_process_row
  by_cases hneg : get_index_first_non_zero_from_row M r true = -1
  · simp [hneg]
  · simp only [if_neg hneg]
    exact length_elim_fold _ _ _ _

theorem rowsLen_bs_process_row (M : Mat) (L r : ℕ) (hL : RowsLen M L)
    (hrM : r < M.length) : RowsLen (back_sub_process_row M r) L := by
  unfold back_sub_process_row
  by_cases hneg : get_index_first_non_zero_from_row M r true = -1
  · simp [hneg, hL]
  · simp only [if_neg hneg]
    exact rowsLen_elim_fold _ _ _ _ _ hL hrM

/-- Running the upward loop from `r` preserves shape, strengthens the
invariant down to `0`, and preserves solutions backward. -/
theorem back_sub_loop_spec (n : ℕ) :
    ∀ (r : ℕ) (M : Mat), r ≤ n → M.length = n → RowsLen M (n + 1) → BsInv n M r →
      BsInv n (back_sub_loop M r) 0 ∧ (back_sub_loop M r).length = n ∧
        RowsLen (back_sub_loop M r) (n + 1) ∧
        (∀ x, SolM n (back_sub_loop M r) x → SolM n M x) := by
  intro r
  induction r with
  | zero =>
    intro M _ hlen hL hinv
    exact ⟨hinv, hlen, hL, fun x h => h⟩
  | succ m ih =>
    intro M hm hlen hL hinv
    rw [back_sub_loop]
    have hstep : BsInv n (back_sub_process_row M m) m :=
      bs_process_row_inv n M m hlen hL (by omega) hinv
    have hlen' : (back_sub_process_row M m).length = n := by
      rw [length_bs_process_row]; exact hlen
    have hL' : RowsLen (back_sub_process_row M m) (n + 1) :=
      rowsLen_bs_process_row M (n + 1) m hL (by omega)
    obtain ⟨hi1, hi2, hi3, hi4⟩ := ih (back_sub_process_row M m) (by omega) hlen' hL' hstep
    refine ⟨hi1, hi2, hi3, fun x hx => ?_⟩
    have hs := hi4 x hx
    refine bs_process_row_sol n M m x hlen hL (by omega) ?_ hs
    exact bs_scan_diag n M m hlen hL (by omega) (hinv.1 m (by omega))
      (fun c hc => hinv.2.1 c m hc (by omega))

/-! ## End-to-end assembly -/

theorem getD_append_right' {α : Type} (l1 l2 : List α) (k : ℕ) (d : α) :
    (l1 ++ l2).getD (l1.length + k) d = l2.getD k d := by
  induction l1 with
  | nil => simp
  | cons a t ih => simpa [Nat.succ_add] using ih

theorem row_echelon_form_matrix (A B : Mat)
    (hdet : np_isclose_zero atolDefault (det A) = false) :
    row_echelon_form A B = RefResult.matrix (refState A B A.length) := by
  unfold row_echelon_form refState
  rw [hdet]
  simp

theorem row_echelon_form_singular_iff (A B : Mat) :
    row_echelon_form A B = RefResult.singular ↔
      np_isclose_zero atolDefault (det A) = true := by
  unfold row_echelon_form
  cases hv : np_isclose_zero atolDefault (det A) <;> simp [hv]

/-- When every row receives a valid pivot, the fully reduced matrix satisfies
the starting invariant of back substitution: unit diagonal and zeros below. -/
theorem refState_bsinv (A B : Mat) (n : ℕ) (hA : isRect A n n) (hB : isRect B n 1)
    (hall : all_pivots_valid A B = true) :
    BsInv n (refState A B A.length) n := by
  have hAl := hA.1
  have hpiv : ∀ i < n, PivRow n (refState A B A.length) i := by
    intro i hi
    refine refState_pivrow A B n hA hB A.length (by omega) i (by omega) ?_
    have := List.all_eq_true.mp hall i (List.mem_range.mpr (by omega))
    simpa using this
  refine ⟨fun i hi => (hpiv i hi).1, fun i j hij hjn => (hpiv i (by omega)).2 j hij hjn, ?_⟩
  intro c hc hcn k hkn hkc
  omega

/-- Modelled back substitution on a matrix satisfying the invariant returns a
vector of `n` values solving every row of that matrix. -/
theorem back_substitution_solves (n : ℕ) (F : Mat)
    (hlen : F.length = n) (hL : RowsLen F (n + 1)) (hinv : BsInv n F n) :
    (back_substitution F).length = n ∧ SolM n F (back_substitution F) := by
  unfold back_substitution
  rw [hlen]
  obtain ⟨hinv0, hGlen, hGL, hsol⟩ := back_sub_loop_spec n n F (Nat.le_refl n) hlen hL hinv
  constructor
  · rw [List.length_map]
    exact hGlen
  · apply hsol
    intro i hiG
    have hin : i < n := by rwa [hGlen] at hiG
    have hrowlen : ((back_sub_loop F n).getD i []).length = n + 1 :=
      rowsLen_getD _ _ _ hGL hiG
    have hxval : ∀ a, a < n →
        ((back_sub_loop F n).map (fun r => r.getD (r.length - 1) 0)).getD a 0 =
          entry (back_sub_loop F n) a n := by
      intro a ha
      have hmap := getD_map_pres (fun (r : List ℚ) => r.getD (r.length - 1) 0)
        (back_sub_loop F n) a ([] : List ℚ)
      simp only [List.getD_nil] at hmap
      rw [hmap, rowsLen_getD _ _ _ hGL (by omega)]
      simp [entry]
    have hxlen : ((back_sub_loop F n).map
        (fun r => r.getD (r.length - 1) 0)).length = n := by
      rw [List.length_map]
      exact hGlen
    have htake_len : (((back_sub_loop F n).getD i []).take n).length = n := by
      rw [List.length_take, hrowlen]
      omega
    have hdelta : ∀ c < (((back_sub_loop F n).getD i []).take n).length,
        (((back_sub_loop F n).getD i []).take n).getD c 0 = if c = i then 1 else 0 := by
      intro c hc
      rw [htake_len] at hc
      rw [getD_take _ _ _ _ hc]
      by_cases hci : c = i
      · subst hci
        rw [if_pos rfl]
        exact hinv0.1 c hin
      · rw [if_neg hci]
        exact hinv0.2.2 c (by omega) hc i hin (fun h => hci h.symm)
    have hdot := dot_delta (((back_sub_loop F n).getD i []).take n)
      ((back_sub_loop F n).map (fun r => r.getD (r.length - 1) 0)) i
      (by rw [htake_len]; exact hin) (by rw [hxlen, htake_len]) hdelta
    rw [hdot, hxval i hin]
    rfl

/-! ## Heap model

The NumPy code operates on arrays with reference semantics: `M.copy()`,
`astype('float64')` and `np.hstack` allocate fresh arrays, while
`M[row] = ...` assigns in place.  To settle the mutation/aliasing claims, the
heap is modelled as a list of arrays addressed by allocation index; each
operation takes the heap and references and returns the new heap together
with its result.  Values of arrays are computed by the pure functions above. -/

abbrev Heap := List Mat

/-- Dereference: the array stored at address `r`. -/
def readH (h : Heap) (r : ℕ) : Mat := h.getD r []

/-- Allocate a fresh array, returning its address. -/
def allocH (h : Heap) (M : Mat) : Heap × ℕ := (h ++ [M], h.length)

/-- In-place assignment to the array at address `r`. -/
def writeH (h : Heap) (r : ℕ) (M : Mat) : Heap := h.set r M

/-- Heap-level `swap_rows`: `M = M.copy()` allocates a fresh array and the
fancy-index assignment mutates only that fresh copy, so the net effect is one
new array holding the swapped value; the argument array is untouched. -/
def swap_rows_heap (h : Heap) (r i j : ℕ) : Heap × ℕ :=
  allocH h (swap_rows (readH h r) i j)

/-- Heap-level body of the elimination loop of `row_echelon_form`: the swap
branch rebinds the local `M` to the freshly allocated swapped array
(`M = swap_rows(M, ...)`); `M[row] = M[row] / pivot` and the inner loop then
mutate the bound working array in place. -/
def ref_row_heap (num_rows : ℕ) (st : Heap × ℕ) (row : ℕ) : Heap × ℕ :=
  let h := st.1
  let mref := st.2
  let M := readH h mref
  if np_isclose_zero atolDefault (entry M row row) then
    let swap_row_index := get_index_first_non_zero_from_column M row (row + 1)
    if swap_row_index = -1 then (h, mref)
    else
      let hm1 := swap_rows_heap h mref row swap_row_index.toNat
      let M1 := readH hm1.1 hm1.2
      (writeH hm1.1 hm1.2
        (eliminate_below (normalize_row M1 row (entry M1 row row)) row num_rows), hm1.2)
  else
    (writeH h mref
      (eliminate_below (normalize_row M row (entry M row row)) row num_rows), mref)

/-- Heap-level `row_echelon_form`: the determinant test only reads; then
`A.astype('float64').copy()`, `B.astype('float64').copy()` and `np.hstack`
allocate fresh arrays, and the loop works in place on the fresh augmented
matrix.  `none` models the `'singular system'` string result. -/
def row_echelon_form_heap (h : Heap) (rA rB : ℕ) : Heap × Option ℕ :=
  let A := readH h rA
  let B := readH h rB
  if np_isclose_zero atolDefault (det A) then (h, none)
  else
    let hA := allocH h A
    let hB := allocH hA.1 B
    let hM := allocH hB.1 (augmented_matrix (readH hB.1 hA.2) (readH hB.1 hB.2))
    let final := (List.range A.length).foldl (ref_row_heap A.length) (hM.1, hM.2)
    (final.1, some final.2)

/-- Heap-level `gaussian_elimination`: propagate the singular marker, else run
the (spec-modelled) `back_substitution` on the value of the working matrix. -/
def gaussian_elimination_heap (h : Heap) (rA rB : ℕ) : Heap × Option (List ℚ) :=
  let res := row_echelon_form_heap h rA rB
  match res.2 with
  | none => (res.1, none)
  | some m => (res.1, some (back_substitution (readH res.1 m)))

theorem readH_allocH_old (h : Heap) (M : Mat) (k : ℕ) (hk : k < h.length) :
    readH (allocH h M).1 k = readH h k := by
  unfold readH allocH
  exact @List.getD_append _ h [M] [] k hk

theorem readH_allocH_new (h : Heap) (M : Mat) :
    readH (allocH h M).1 (allocH h M).2 = M := by
  unfold readH allocH
  have := getD_append_right' h [M] 0 ([] : Mat)
  simp only [Nat.add_zero] at this
  rw [this]
  rfl

theorem readH_writeH_ne (h : Heap) (r : ℕ) (M : Mat) (k : ℕ) (hk : k ≠ r) :
    readH (writeH h r M) k = readH h k := by
  unfold readH writeH
  exact getD_set_ne _ _ _ _ _ (fun he => hk he.symm)

/-- Frame invariant threaded through the heap-level loop: the heap has grown,
the working reference points past all original cells, and every original cell
still holds its original array. -/
def HFrame (h0 : Heap) (st : Heap × ℕ) : Prop :=
  h0.length ≤ st.1.length ∧ h0.length ≤ st.2 ∧
    ∀ k < h0.length, readH st.1 k = readH h0 k

theorem ref_row_heap_frame (h0 : Heap) (num_rows : ℕ) (st : Heap × ℕ) (row : ℕ)
    (hf : HFrame h0 st) : HFrame h0 (ref_row_heap num_rows st row) := by
  obtain ⟨hlen, hmref, hread⟩ := hf
  unfold ref_row_heap
  by_cases hc : np_isclose_zero atolDefault
      (entry (readH st.1 st.2) row row) = true
  · by_cases hneg : get_index_first_non_zero_from_column (readH st.1 st.2) row (row + 1) = -1
    · simp only [hc, if_true, hneg]
      exact ⟨hlen, hmref, hread⟩
    · simp only [hc, if_true, if_neg hneg]
      refine ⟨?_, ?_, ?_⟩
      · simp [writeH, swap_rows_heap, allocH]
        omega
      · simp [swap_rows_heap, allocH]
        omega
      · intro k hk
        rw [readH_writeH_ne _ _ _ _ (by simp [swap_rows_heap, allocH]; omega)]
        rw [swap_rows_heap]
        rw [readH_allocH_old _ _ _ (by omega)]
        exact hread k hk
  · simp only [Bool.not_eq_true] at hc
    simp only [hc, Bool.false_eq_true, if_false]
    refine ⟨by simp [writeH]; omega, hmref, ?_⟩
    intro k hk
    rw [readH_writeH_ne _ _ _ _ (by omega)]
    exact hread k hk

theorem fold_heap_frame (h0 : Heap) (num_rows : ℕ) (js : List ℕ) (st : Heap × ℕ)
    (hf : HFrame h0 st) : HFrame h0 (js.foldl (ref_row_heap num_rows) st) := by
  induction js generalizing st with
  | nil => exact hf
  | cons j t ih =>
    rw [List.foldl_cons]
    exact ih _ (ref_row_heap_frame h0 num_rows st j hf)

/-- `row_echelon_form` never mutates any pre-existing heap cell — in
particular the caller's `A` and `B` hold their original values afterwards. -/
theorem row_echelon_form_heap_frame (h : Heap) (rA rB : ℕ) (k : ℕ) (hk : k < h.length) :
    readH (row_echelon_form_heap h rA rB).1 k = readH h k := by
  unfold row_echelon_form_heap
  by_cases hdet : np_isclose_zero atolDefault (det (readH h rA)) = true
  · simp [hdet]
  · simp only [Bool.not_eq_true] at hdet
    simp only [hdet, Bool.false_eq_true, if_false]
    have hstart : HFrame h
        ((allocH (allocH (allocH h (readH h rA)).1 (readH h rB)).1
          (augmented_matrix (readH (allocH (allocH h (readH h rA)).1 (readH h rB)).1
            (allocH h (readH h rA)).2)
           (readH (allocH (allocH h (readH h rA)).1 (readH h rB)).1
            (allocH (allocH h (readH h rA)).1 (readH h rB)).2))).1,
         (allocH (allocH (allocH h (readH h rA)).1 (readH h rB)).1
           (augmented_matrix (readH (allocH (allocH h (readH h rA)).1 (readH h rB)).1
             (allocH h (readH h rA)).2)
            (readH (allocH (allocH h (readH h rA)).1 (readH h rB)).1
             (allocH (allocH h (readH h rA)).1 (readH h rB)).2))).2) := by
      refine ⟨by simp only [allocH, List.length_append]; omega,
        by simp only [allocH, List.length_append]; omega, ?_⟩
      intro k' hk'
      rw [readH_allocH_old _ _ _ (by simp [allocH]; omega),
        readH_allocH_old _ _ _ (by simp [allocH]; omega),
        readH_allocH_old _ _ _ (by omega)]
    have := fold_heap_frame h (readH h rA).length (List.range (readH h rA).length) _ hstart
    exact this.2.2 k hk

/-- `gaussian_elimination` never mutates any pre-existing heap cell. -/
theorem gaussian_elimination_heap_frame (h : Heap) (rA rB : ℕ) (k : ℕ) (hk : k < h.length) :
    readH (gaussian_elimination_heap h rA rB).1 k = readH h k := by
  unfold gaussian_elimination_heap
  cases hres : (row_echelon_form_heap h rA rB).2 with
  | none =>
    simp only [hres]
    exact row_echelon_form_heap_frame h rA rB k hk
  | some m =>
    simp only [hres]
    exact row_echelon_form_heap_frame h rA rB k hk

/-! ## Remaining helpers -/

theorem list_ext_getD {α : Type} (l1 l2 : List α) (d : α) (hlen : l1.length = l2.length)
    (h : ∀ a < l1.length, l1.getD a d = l2.getD a d) : l1 = l2 := by
  apply List.ext_getElem hlen
  intro a h1 h2
  have := h a h1
  rwa [List.getD_eq_getElem _ _ h1, List.getD_eq_getElem _ _ h2] at this

theorem swap_rows_involutive (M : Mat) (i j : ℕ) (hi : i < M.length) (hj : j < M.length) :
    swap_rows (swap_rows M i j) j i = M := by
  by_cases hij : i = j
  · subst hij
    rw [swap_rows_self, swap_rows_self]
  · have hiS : i < (swap_rows M i j).length := by rw [length_swap_rows]; exact hi
    have hjS : j < (swap_rows M i j).length := by rw [length_swap_rows]; exact hj
    apply list_ext_getD _ _ ([] : List ℚ)
      (by rw [length_swap_rows, length_swap_rows])
    intro a ha
    rw [length_swap_rows, length_swap_rows] at ha
    by_cases hai : a = i
    · subst hai
      rw [getD_swap_right _ _ _ hiS, getD_swap_right _ _ _ hj]
    · by_cases haj : a = j
      · subst haj
        rw [getD_swap_left _ _ _ hjS (fun h => hij h.symm),
          getD_swap_left _ _ _ hi hij]
      · rw [getD_swap_other _ _ _ _ haj hai, getD_swap_other _ _ _ _ hai haj]

theorem isclose_iff (atol v : ℚ) : np_isclose_zero atol v = true ↔ |v| ≤ atol := by
  simp [np_isclose_zero]

theorem isclose_false_iff (atol v : ℚ) : np_isclose_zero atol v = false ↔ ¬(|v| ≤ atol) := by
  simp [np_isclose_zero]

/-! ## Claims -/

/-- C1 (amended): for matrices of matching shapes that pass the determinant
singularity test AND for which every row of the forward elimination receives a
valid pivot (no iteration takes the skip branch), `gaussian_elimination`
(with `back_substitution` modelled from the spec) returns a vector of `n`
values `x` with `A·x = B` within `1e-6` per entry (exactly, in the rational
model). -/
theorem gaussian_elimination_roundtrip_of_valid_pivots :
    ∀ (A B : Mat) (n : ℕ), isRect A n n → isRect B n 1 →
      np_isclose_zero atolDefault (det A) = false →
      all_pivots_valid A B = true →
      ∃ x : List ℚ, gaussian_elimination A B = PyValue.vec x ∧ x.length = n ∧
        ∀ i < n, |dot (A.getD i []) x - entry B i 0| ≤ 1 / 1000000 := by
  intro A B n hA hB hdet hall
  have hAl : A.length = n := hA.1
  have hBl : B.length = n := hB.1
  have hREF := row_echelon_form_matrix A B hdet
  have hGE : gaussian_elimination A B =
      PyValue.vec (back_substitution (refState A B A.length)) := by
    unfold gaussian_elimination
    rw [hREF]
  have hFlen : (refState A B A.length).length = n := refState_length A B n _ hAl hBl
  have hFL : RowsLen (refState A B A.length) (n + 1) :=
    refState_rowsLen A B n _ hA hB (by omega)
  have hinv : BsInv n (refState A B A.length) n := refState_bsinv A B n hA hB hall
  obtain ⟨hxlen, hsolF⟩ := back_substitution_solves n _ hFlen hFL hinv
  refine ⟨back_substitution (refState A B A.length), hGE, hxlen, ?_⟩
  have hsol0 : SolM n (augmented_matrix A B) (back_substitution (refState A B A.length)) :=
    solM_refState_back A B n A.length _ hA hB (by omega) hsolF
  intro i hi
  have hiA : i < A.length := by omega
  have hiB : i < B.length := by omega
  have hauglen : (augmented_matrix A B).length = n := augmented_length A B n hAl hBl
  have h := hsol0 i (by omega)
  rw [augmented_getD A B i hiA hiB] at h
  have hAirow : (A.getD i []).length = n := hA.2 _ (getD_mem _ _ _ hiA)
  have htake : ((A.getD i []) ++ (B.getD i [])).take n = A.getD i [] := by
    rw [← hAirow]
    exact List.take_left _ _
  have hgetn : ((A.getD i []) ++ (B.getD i [])).getD n 0 = entry B i 0 := by
    have hr := getD_append_right' (A.getD i []) (B.getD i []) 0 (0 : ℚ)
    rw [hAirow, Nat.add_zero] at hr
    rw [hr]
    rfl
  rw [htake, hgetn] at h
  rw [h, sub_self, abs_zero]
  norm_num

/-- C1 witness: the spec's end-to-end scenario
`A = [[2,1,-1],[-3,-1,2],[-2,1,2]]`, `B = [[8],[-11],[-3]]` satisfies every
hypothesis, so the solver returns a length-3 solution with `A·x = B` within
`1e-6` per entry. -/
theorem gaussian_elimination_roundtrip_witness :
    ∃ x : List ℚ,
      gaussian_elimination [[2, 1, -1], [-3, -1, 2], [-2, 1, 2]]
        [[8], [-11], [-3]] = PyValue.vec x ∧ x.length = 3 ∧
      ∀ i < 3, |dot ([[(2 : ℚ), 1, -1], [-3, -1, 2], [-2, 1, 2]].getD i [])
        x - entry [[8], [-11], [-3]] i 0| ≤ 1 / 1000000 :=
  gaussian_elimination_roundtrip_of_valid_pivots
    [[2, 1, -1], [-3, -1, 2], [-2, 1, 2]] [[8], [-11], [-3]] 3
    (by with_unfolding_all decide) (by with_unfolding_all decide)
    (by with_unfolding_all decide) (by with_unfolding_all decide)

/-- C1 counterexample: `A = [[1e-9, 1],[1e-6, 0]]`, `B = [[1],[1]]` passes the
determinant test (`|det A| = 1e-6 > 1e-8`), but both loop iterations take the
skip branch (pivot candidates `1e-9` and `0` are within the default tolerance,
and the candidate below, `1e-6`, is within the scanners' `1e-5`), so the
returned vector `[1, 1]` violates `A·x ≈ B`: the second residual is
`|1e-6 - 1| > 1e-6`. -/
theorem gaussian_elimination_roundtrip_counterexample :
    np_isclose_zero atolDefault
      (det [[1 / 1000000000, 1], [1 / 1000000, 0]]) = false ∧
    gaussian_elimination [[1 / 1000000000, 1], [1 / 1000000, 0]] [[1], [1]] =
      PyValue.vec [1, 1] ∧
    ¬(|dot ([[(1 : ℚ) / 1000000000, 1], [1 / 1000000, 0]].getD 1 []) [1, 1] -
        entry [[1], [1]] 1 0| ≤ 1 / 1000000) :=
  ⟨by with_unfolding_all decide, by with_unfolding_all decide,
    by with_unfolding_all decide⟩

/-- C2: whenever the determinant of `A` is within the determinant test's
tolerance of zero, `row_echelon_form` returns the singular-system marker
before any elimination, both the intended and the saved-source
`gaussian_elimination` propagate exactly that marker (the saved source's
missing `back_substitution` is never reached), and no numeric vector is ever
returned. -/
theorem singular_marker_propagation :
    ∀ A B : Mat, np_isclose_zero atolDefault (det A) = true →
      row_echelon_form A B = RefResult.singular ∧
      gaussian_elimination A B = PyValue.str "singular system" ∧
      gaussian_elimination_saved A B = PyOutcome.str "singular system" ∧
      ∀ xs : List ℚ, gaussian_elimination A B ≠ PyValue.vec xs := by
  intro A B h
  have hREF : row_echelon_form A B = RefResult.singular := by
    rw [row_echelon_form_singular_iff]
    exact h
  refine ⟨hREF, ?_, ?_, ?_⟩
  · unfold gaussian_elimination
    rw [hREF]
  · unfold gaussian_elimination_saved
    rw [hREF]
  · intro xs hxs
    unfold gaussian_elimination at hxs
    rw [hREF] at hxs
    exact PyValue.noConfusion hxs

/-- C2 witness: the spec's singular scenario `A = [[1,2],[2,4]]` (dependent
rows, determinant `0`). -/
theorem singular_marker_propagation_witness :
    row_echelon_form [[1, 2], [2, 4]] [[5], [6]] = RefResult.singular ∧
    gaussian_elimination [[1, 2], [2, 4]] [[5], [6]] = PyValue.str "singular system" ∧
    gaussian_elimination_saved [[1, 2], [2, 4]] [[5], [6]] =
      PyOutcome.str "singular system" ∧
    ∀ xs : List ℚ, gaussian_elimination [[1, 2], [2, 4]] [[5], [6]] ≠ PyValue.vec xs :=
  singular_marker_propagation [[1, 2], [2, 4]] [[5], [6]] (by with_unfolding_all decide)

/-- C3: on every input on which `row_echelon_form` returns a matrix, the
saved notebook source's `gaussian_elimination` reaches the call
`back_substitution(row_echelon_M)`; the name `back_substitution` is bound
nowhere in the saved source, so the call raises `NameError` and no solution
vector is produced. -/
theorem saved_solver_name_error :
    ∀ (A B : Mat) (M : Mat), row_echelon_form A B = RefResult.matrix M →
      gaussian_elimination_saved A B = PyOutcome.nameError "back_substitution" ∧
      ∀ xs : List ℚ, gaussian_elimination_saved A B ≠ PyOutcome.vec xs := by
  intro A B M h
  constructor
  · unfold gaussian_elimination_saved
    rw [h]
  · intro xs hxs
    unfold gaussian_elimination_saved at hxs
    rw [h] at hxs
    exact PyOutcome.noConfusion hxs

/-- C3 witness: the identity system reduces to a matrix, and the saved source
then fails with the undefined-name error. -/
theorem saved_solver_name_error_witness :
    gaussian_elimination_saved [[1, 0], [0, 1]] [[1], [2]] =
      PyOutcome.nameError "back_substitution" ∧
    ∀ xs : List ℚ, gaussian_elimination_saved [[1, 0], [0, 1]] [[1], [2]] ≠
      PyOutcome.vec xs :=
  saved_solver_name_error [[1, 0], [0, 1]] [[1], [2]] [[1, 0, 1], [0, 1, 2]]
    (by with_unfolding_all decide)

/-- C4 (amended): the two pivot scanners treat a value as zero exactly when
its absolute value is at most `1e-5`, but the determinant singularity test
(and the pivot-candidate test, which shares `np_isclose`'s defaults through
`atolDefault`) treats a value as zero exactly when its absolute value is at
most the default tolerance `1e-8`; exact equality to zero is never used. -/
theorem zero_test_tolerances :
    ∀ v : ℚ,
      (np_isclose_zero atolScan v = true ↔ |v| ≤ 1 / 100000) ∧
      (np_isclose_zero atolDefault v = true ↔ |v| ≤ 1 / 100000000) ∧
      ∀ A B : Mat, row_echelon_form A B = RefResult.singular ↔
        |det A| ≤ 1 / 100000000 := by
  intro v
  refine ⟨?_, ?_, ?_⟩
  · rw [isclose_iff]
    norm_num [atolScan]
  · rw [isclose_iff]
    norm_num [atolDefault]
  · intro A B
    rw [row_echelon_form_singular_iff, isclose_iff]
    norm_num [atolDefault]

/-- C4 counterexample: for `A = [[1e-6]]` the determinant `1e-6` has absolute
value at most `1e-5`, yet the determinant test does not treat it as zero —
`row_echelon_form` proceeds and returns a matrix instead of the singular
marker, refuting the claim that every zero comparison uses the `1e-5`
tolerance. -/
theorem zero_test_tolerances_counterexample :
    |det [[(1 : ℚ) / 1000000]]| ≤ 1 / 100000 ∧
    row_echelon_form [[(1 : ℚ) / 1000000]] [[1]] ≠ RefResult.singular :=
  ⟨by with_unfolding_all decide, by with_unfolding_all decide⟩

/-- C5: on any input that passes the upfront determinant test, whenever the
loop reaches a row whose diagonal pivot candidate is within the default
tolerance of zero and the column scan below it finds nothing, that iteration
leaves the matrix entirely unchanged (no error, no singular marker, row left
un-normalized) and the function still returns a matrix at the end. -/
theorem skip_branch_lenient :
    ∀ A B : Mat, np_isclose_zero atolDefault (det A) = false →
      (∀ k, k < A.length →
        np_isclose_zero atolDefault (entry (refState A B k) k k) = true →
        get_index_first_non_zero_from_column (refState A B k) k (k + 1) = -1 →
        refState A B (k + 1) = refState A B k) ∧
      row_echelon_form A B = RefResult.matrix (refState A B A.length) := by
  intro A B hdet
  constructor
  · intro k hk hclose hneg
    rw [refState_succ]
    exact ref_process_row_skip _ _ _ hclose hneg
  · exact row_echelon_form_matrix A B hdet

/-- C5 witness: `A = [[1e-9, 1],[1e-6, 0]]` passes the determinant test
(`det = -1e-6`); at row `0` the candidate `1e-9` is within the default
tolerance and the scan below finds only `1e-6 ≤ 1e-5`, so the iteration
changes nothing and the reduction still returns a matrix. -/
theorem skip_branch_lenient_witness :
    refState [[1 / 1000000000, 1], [1 / 1000000, 0]] [[1], [1]] (0 + 1) =
      refState [[1 / 1000000000, 1], [1 / 1000000, 0]] [[1], [1]] 0 ∧
    row_echelon_form [[1 / 1000000000, 1], [1 / 1000000, 0]] [[1], [1]] =
      RefResult.matrix (refState [[1 / 1000000000, 1], [1 / 1000000, 0]] [[1], [1]]
        (List.length [[(1 : ℚ) / 1000000000, 1], [1 / 1000000, 0]])) := by
  obtain ⟨h1, h2⟩ := skip_branch_lenient [[1 / 1000000000, 1], [1 / 1000000, 0]] [[1], [1]]
    (by with_unfolding_all decide)
  exact ⟨h1 0 (by with_unfolding_all decide) (by with_unfolding_all decide)
    (by with_unfolding_all decide), h2⟩

/-- C6: for non-singular inputs (per the determinant test), every row `i` of
the returned matrix that received a valid pivot satisfies the row-echelon
shape invariant: its diagonal entry equals `1` within tolerance and every
entry below it in column `i` equals `0` within tolerance. -/
theorem row_echelon_shape_invariant :
    ∀ (A B : Mat) (n : ℕ) (F : Mat), isRect A n n → isRect B n 1 →
      np_isclose_zero atolDefault (det A) = false →
      row_echelon_form A B = RefResult.matrix F →
      ∀ i < n, has_valid_pivot (refState A B i) i = true →
        |entry F i i - 1| ≤ atolScan ∧
        ∀ j, i < j → j < n → |entry F j i| ≤ atolScan := by
  intro A B n F hA hB hdet hREF i hi hvalid
  have hAl : A.length = n := hA.1
  have hREF' := row_echelon_form_matrix A B hdet
  rw [hREF] at hREF'
  have hFeq : F = refState A B A.length := RefResult.matrix.inj hREF'
  have hpiv : PivRow n (refState A B A.length) i :=
    refState_pivrow A B n hA hB A.length (by omega) i (by omega) hvalid
  constructor
  · rw [hFeq, hpiv.1, sub_self, abs_zero]
    exact atolScan_nonneg
  · intro j hij hjn
    rw [hFeq, hpiv.2 j hij hjn, abs_zero]
    exact atolScan_nonneg

/-- C6 witness: the notebook's own example `A = [[1,2,3],[0,1,0],[0,0,5]]`,
`B = [[1],[2],[4]]` — row `0` receives a valid pivot and satisfies the shape
invariant in the returned matrix. -/
theorem row_echelon_shape_invariant_witness :
    |entry (refState [[1, 2, 3], [0, 1, 0], [0, 0, 5]] [[1], [2], [4]]
      (List.length [[(1 : ℚ), 2, 3], [0, 1, 0], [0, 0, 5]])) 0 0 - 1| ≤ atolScan ∧
    ∀ j, 0 < j → j < 3 →
      |entry (refState [[1, 2, 3], [0, 1, 0], [0, 0, 5]] [[1], [2], [4]]
        (List.length [[(1 : ℚ), 2, 3], [0, 1, 0], [0, 0, 5]])) j 0| ≤ atolScan :=
  row_echelon_shape_invariant [[1, 2, 3], [0, 1, 0], [0, 0, 5]] [[1], [2], [4]] 3
    (refState [[1, 2, 3], [0, 1, 0], [0, 0, 5]] [[1], [2], [4]]
      (List.length [[(1 : ℚ), 2, 3], [0, 1, 0], [0, 0, 5]]))
    (by with_unfolding_all decide) (by with_unfolding_all decide)
    (by with_unfolding_all decide)
    (row_echelon_form_matrix _ _ (by with_unfolding_all decide))
    0 (by omega) (by with_unfolding_all decide)

/-- C7: `get_index_first_non_zero_from_column` returns the smallest row index
`r ≥ starting_row` whose entry in the column exceeds the `1e-5` tolerance
(every earlier candidate row is within tolerance), and returns `-1` exactly
when every entry from `starting_row` through the last row is within
tolerance — vacuously including when `starting_row` exceeds the row count. -/
theorem first_nonzero_column_spec :
    ∀ (M : Mat) (column starting_row : ℕ),
      (∀ r : ℕ, get_index_first_non_zero_from_column M column starting_row = (r : Int) →
        starting_row ≤ r ∧ r < M.length ∧ ¬(|entry M r column| ≤ atolScan) ∧
          ∀ m, starting_row ≤ m → m < r → |entry M m column| ≤ atolScan) ∧
      (get_index_first_non_zero_from_column M column starting_row = -1 ↔
        ∀ r, starting_row ≤ r → r < M.length → |entry M r column| ≤ atolScan) ∧
      ((∃ r, starting_row ≤ r ∧ r < M.length ∧ ¬(|entry M r column| ≤ atolScan)) →
        ∃ r : ℕ, get_index_first_non_zero_from_column M column starting_row = (r : Int)) := by
  intro M column starting_row
  refine ⟨?_, ?_, ?_⟩
  · intro r hr
    obtain ⟨h1, h2, h3, h4⟩ := col_scan_eq_coe M column starting_row r hr
    exact ⟨h1, h2, (isclose_false_iff _ _).mp h3,
      fun m hm1 hm2 => (isclose_iff _ _).mp (h4 m hm1 hm2)⟩
  · rw [col_scan_neg_iff]
    constructor
    · intro h r h1 h2
      exact (isclose_iff _ _).mp (h r h1 h2)
    · intro h r h1 h2
      exact (isclose_iff _ _).mpr (h r h1 h2)
  · intro ⟨r, h1, h2, h3⟩
    rcases col_scan_cases M column starting_row with hneg | ⟨r', hr', _⟩
    · rw [col_scan_neg_iff] at hneg
      exact absurd ((isclose_iff _ _).mp (hneg r h1 h2)) h3
    · exact ⟨r', hr'⟩

/-- C7 witness: on the notebook's matrix `N` restricted to column `1`, the
scanner from row `0` returns exactly row `1`, the first row whose entry in
that column is beyond tolerance. -/
theorem first_nonzero_column_spec_witness :
    0 ≤ 1 ∧ 1 < 3 ∧
      ¬(|entry [[0, 0, 0], [0, 5, 0], [0, 0, 9]] 1 1| ≤ atolScan) ∧
      ∀ m, 0 ≤ m → m < 1 →
        |entry [[0, 0, 0], [0, 5, 0], [0, 0, 9]] m 1| ≤ atolScan :=
  (first_nonzero_column_spec [[0, 0, 0], [0, 5, 0], [0, 0, 9]] 1 0).1 1
    (by with_unfolding_all decide)

/-- C8: in the heap model, no pre-existing array is ever modified by
`swap_rows`, `row_echelon_form` or `gaussian_elimination` (in particular the
caller's argument matrices hold exactly their original values afterwards),
and `swap_rows(M, i, i)` returns a fresh array — at a new address — whose
value equals the original. -/
theorem no_argument_mutation :
    ∀ (h : Heap) (r i j rB k : ℕ),
      (k < h.length → readH (swap_rows_heap h r i j).1 k = readH h k) ∧
      (r < h.length → (swap_rows_heap h r i i).2 ≠ r ∧
        readH (swap_rows_heap h r i i).1 (swap_rows_heap h r i i).2 = readH h r) ∧
      (k < h.length → readH (row_echelon_form_heap h r rB).1 k = readH h k) ∧
      (k < h.length → readH (gaussian_elimination_heap h r rB).1 k = readH h k) := by
  intro h r i j rB k
  refine ⟨?_, ?_, ?_, ?_⟩
  · intro hk
    exact readH_allocH_old _ _ _ hk
  · intro hr
    constructor
    · show (allocH h _).2 ≠ r
      unfold allocH
      omega
    · rw [swap_rows_heap, readH_allocH_new, swap_rows_self]
  · intro hk
    exact row_echelon_form_heap_frame h r rB k hk
  · intro hk
    exact gaussian_elimination_heap_frame h r rB k hk

/-- C8 witness: a two-cell heap holding `A = [[1,2],[3,4]]` and
`B = [[5],[6]]`; after a swap, a reduction and a full solve, cell `0` still
holds `A`, and a self-swap returns a fresh address holding an equal array. -/
theorem no_argument_mutation_witness :
    readH (swap_rows_heap [[[1, 2], [3, 4]], [[5], [6]]] 0 0 1).1 0 =
      readH [[[1, 2], [3, 4]], [[5], [6]]] 0 ∧
    ((swap_rows_heap [[[1, 2], [3, 4]], [[5], [6]]] 0 0 0).2 ≠ 0 ∧
      readH (swap_rows_heap [[[1, 2], [3, 4]], [[5], [6]]] 0 0 0).1
        (swap_rows_heap [[[1, 2], [3, 4]], [[5], [6]]] 0 0 0).2 =
      readH [[[1, 2], [3, 4]], [[5], [6]]] 0) ∧
    readH (row_echelon_form_heap [[[1, 2], [3, 4]], [[5], [6]]] 0 1).1 0 =
      readH [[[1, 2], [3, 4]], [[5], [6]]] 0 ∧
    readH (gaussian_elimination_heap [[[1, 2], [3, 4]], [[5], [6]]] 0 1).1 0 =
      readH [[[1, 2], [3, 4]], [[5], [6]]] 0 := by
  obtain ⟨h1, h2, h3, h4⟩ :=
    no_argument_mutation [[[1, 2], [3, 4]], [[5], [6]]] 0 0 1 1 0
  exact ⟨h1 (by with_unfolding_all decide), h2 (by with_unfolding_all decide),
    h3 (by with_unfolding_all decide), h4 (by with_unfolding_all decide)⟩

/-- C9: swapping rows `i` and `j` and then swapping back (`j` and `i`)
returns the original matrix entry for entry, for any valid row indices. -/
theorem swap_rows_double_swap :
    ∀ (M : Mat) (i j : ℕ), i < M.length → j < M.length →
      swap_rows (swap_rows M i j) j i = M := by
  intro M i j hi hj
  exact swap_rows_involutive M i j hi hj

/-- C9 witness: the notebook's example matrix, swapping rows `0` and `2` and
back. -/
theorem swap_rows_double_swap_witness :
    swap_rows (swap_rows [[1, 3, 6], [0, -5, 2], [-4, 5, 8]] 0 2) 2 0 =
      [[(1 : ℚ), 3, 6], [0, -5, 2], [-4, 5, 8]] :=
  swap_rows_double_swap [[1, 3, 6], [0, -5, 2], [-4, 5, 8]] 0 2
    (by with_unfolding_all decide) (by with_unfolding_all decide)

/-- C10: for `A` of shape `n × n` and `B` of shape `n × k`,
`augmented_matrix(A, B)` has `n` rows, and each row is exactly the
corresponding row of `A` followed by the corresponding row of `B`, of length
`n + k`; in particular `A = [[1,2],[3,4]]`, `B = [[5],[6]]` yields
`[[1,2,5],[3,4,6]]`. -/
theorem augmented_matrix_spec :
    ∀ (A B : Mat) (n k : ℕ), isRect A n n → isRect B n k →
      ((augmented_matrix A B).length = n ∧
        ∀ i < n, (augmented_matrix A B).getD i [] = A.getD i [] ++ B.getD i [] ∧
          ((augmented_matrix A B).getD i []).length = n + k) ∧
      augmented_matrix [[1, 2], [3, 4]] [[5], [6]] = [[1, 2, 5], [3, 4, 6]] := by
  intro A B n k hA hB
  have hAl : A.length = n := hA.1
  have hBl : B.length = n := hB.1
  refine ⟨⟨augmented_length A B n hA.1 hB.1, ?_⟩, by with_unfolding_all decide⟩
  intro i hi
  have hiA : i < A.length := by omega
  have hiB : i < B.length := by omega
  have hrow := augmented_getD A B i hiA hiB
  refine ⟨hrow, ?_⟩
  rw [hrow, List.length_append, hA.2 _ (getD_mem _ _ _ hiA), hB.2 _ (getD_mem _ _ _ hiB)]

/-- C10 witness: the spec's augmentation scenario. -/
theorem augmented_matrix_spec_witness :
    ((augmented_matrix [[1, 2], [3, 4]] [[5], [6]]).length = 2 ∧
      ∀ i < 2, (augmented_matrix [[1, 2], [3, 4]] [[5], [6]]).getD i [] =
          [[(1 : ℚ), 2], [3, 4]].getD i [] ++ [[(5 : ℚ)], [6]].getD i [] ∧
        ((augmented_matrix [[1, 2], [3, 4]] [[5], [6]]).getD i []).length = 2 + 1) ∧
    augmented_matrix [[1, 2], [3, 4]] [[5], [6]] = [[1, 2, 5], [3, 4, 6]] :=
  augmented_matrix_spec [[1, 2], [3, 4]] [[5], [6]] 2 1
    (by with_unfolding_all decide) (by with_unfolding_all decide)

end GaussElim
